import Mathlib

/-!
Verification of the cedict dictionary engine (Go package `cedict`).

Shallow embedding conventions:
* Go strings are modelled as `Str := List Char` (one element per Unicode code
  point). Go indexes strings by byte; every place the source uses a byte index
  it either converts it to a rune index (`guessToneIndex`) or applies it to an
  ASCII character (tone digits, `p[:1]`), so the rune-level model agrees with
  the byte-level source at every point used below, and a comment marks each
  such spot.
* Functions that can panic in Go (out-of-range slice or index) return
  `Option`; `none` models the runtime panic, `some` the normal result.
* Fallible functions return `Except` inside the `Option`.
-/

deriving instance DecidableEq for Except

namespace Cedict

/-- Strings as lists of Unicode code points. -/
abbrev Str := List Char

/-! ## Basic string helpers (Go `strings` package operations) -/

/-- Index (in code points) of the first occurrence of `c`, if any.
Models Go `strings.IndexRune` (the source converts its byte index to a
rune index before use). -/
def idxOfC (c : Char) : Str → Option Nat
  | [] => none
  | x :: xs => if x = c then some 0 else (idxOfC c xs).map (· + 1)

/-- Index of the first character that belongs to `cs`, if any.
Models Go `strings.IndexAny`; the source only applies it to ASCII digit sets,
where byte index and rune index coincide on the matched character. -/
def firstIdxAny (cs : List Char) : Str → Option Nat
  | [] => none
  | x :: xs => if x ∈ cs then some 0 else (firstIdxAny cs xs).map (· + 1)

/-- Split on a separator character; models Go `strings.Split(s, sep)` for a
single-character separator (empty pieces preserved, `split "" = [""]`). -/
def splitC (c : Char) : Str → List Str
  | [] => [[]]
  | x :: xs =>
    if x = c then [] :: splitC c xs
    else
      match splitC c xs with
      | [] => [[x]]
      | h :: t => (x :: h) :: t

/-- Whitespace test; models Go `unicode.IsSpace` on the characters that occur
in this development (ASCII space, tab, newline, carriage return). -/
def isSp (c : Char) : Bool := c = ' ' ∨ c = '\t' ∨ c = '\n' ∨ c = '\r'

/-- Models Go `strings.TrimSpace`. -/
def trimSpace (s : Str) : Str :=
  ((s.dropWhile isSp).reverse.dropWhile isSp).reverse

/-! ## Tone codec tables (source: `vowels`, `toneNums`, `mapNumToTone`,
`mapToneToNum`) -/

/-- Source `vowels = "AaEeiOouür"`, in priority order. -/
def vowels : List Char := ['A', 'a', 'E', 'e', 'i', 'O', 'o', 'u', 'ü', 'r']

/-- Source `toneNums = "12345"`. -/
def toneNums : List Char := ['1', '2', '3', '4', '5']

/-- Source map `mapNumToTone`; a missing key models Go's nil-slice result,
whose indexing panics. -/
def mapNumToTone : Char → Option (List Char)
  | 'A' => some ['Ā', 'Á', 'Ǎ', 'À', 'A']
  | 'a' => some ['ā', 'á', 'ǎ', 'à', 'a']
  | 'E' => some ['Ē', 'É', 'Ě', 'È', 'E']
  | 'e' => some ['ē', 'é', 'ě', 'è', 'e']
  | 'i' => some ['ī', 'í', 'ǐ', 'ì', 'i']
  | 'O' => some ['Ō', 'Ó', 'Ǒ', 'Ò', 'O']
  | 'o' => some ['ō', 'ó', 'ǒ', 'ò', 'o']
  | 'u' => some ['ū', 'ú', 'ǔ', 'ù', 'u']
  | 'ü' => some ['ǖ', 'ǘ', 'ǚ', 'ǜ', 'ü']
  | 'r' => some ['r', 'r', 'r', 'r', 'r']
  | _ => none

/-- Number of keys of the source map `mapNumToTone`; the source compares the
tone against `len(mapNumToTone)`, the size of the map. -/
def mapNumToToneSize : Nat := 10

/-- Source map `mapToneToNum`. The Go value is a string such as `"a1"` or
`"u: "`; the source uses `m[:len(m)-1]` as replacement text and
`TrimSpace(m[len(m)-1:])` as the pending tone digit, so the value is modelled
directly as that (replacement, pending-tone) pair: `'ü' ↦ ("u:", "")`. -/
def mapToneToNum : Char → Option (Str × Str)
  | 'Ā' => some (['A'], ['1'])
  | 'Á' => some (['A'], ['2'])
  | 'Ǎ' => some (['A'], ['3'])
  | 'À' => some (['A'], ['4'])
  | 'ā' => some (['a'], ['1'])
  | 'á' => some (['a'], ['2'])
  | 'ǎ' => some (['a'], ['3'])
  | 'à' => some (['a'], ['4'])
  | 'Ē' => some (['E'], ['1'])
  | 'É' => some (['E'], ['2'])
  | 'Ě' => some (['E'], ['3'])
  | 'È' => some (['E'], ['4'])
  | 'ē' => some (['e'], ['1'])
  | 'é' => some (['e'], ['2'])
  | 'ě' => some (['e'], ['3'])
  | 'è' => some (['e'], ['4'])
  | 'ī' => some (['i'], ['1'])
  | 'í' => some (['i'], ['2'])
  | 'ǐ' => some (['i'], ['3'])
  | 'ì' => some (['i'], ['4'])
  | 'Ō' => some (['O'], ['1'])
  | 'Ó' => some (['O'], ['2'])
  | 'Ǒ' => some (['O'], ['3'])
  | 'Ò' => some (['O'], ['4'])
  | 'ō' => some (['o'], ['1'])
  | 'ó' => some (['o'], ['2'])
  | 'ǒ' => some (['o'], ['3'])
  | 'ò' => some (['o'], ['4'])
  | 'ū' => some (['u'], ['1'])
  | 'ú' => some (['u'], ['2'])
  | 'ǔ' => some (['u'], ['3'])
  | 'ù' => some (['u'], ['4'])
  | 'ü' => some (['u', ':'], [])
  | 'ǖ' => some (['u', ':'], ['1'])
  | 'ǘ' => some (['u', ':'], ['2'])
  | 'ǚ' => some (['u', ':'], ['3'])
  | 'ǜ' => some (['u', ':'], ['4'])
  | _ => none

/-! ## `PinyinToneNums` (source lines 601-617) -/

/-- Inner loop of `PinyinToneNums` over one word: accumulates the rewritten
characters and the pending tone digit (`tone` variable of the source). -/
def toneNumsWord (w : Str) : Str × Str :=
  w.foldl
    (fun acc r =>
      match mapToneToNum r with
      | some p => (acc.1 ++ p.1, p.2)
      | none => (acc.1 ++ [r], acc.2))
    ([], [])

/-- Source `PinyinToneNums`: converts diacritic tones to tone numbers,
appending each word's pending tone digit at the word's end. -/
def PinyinToneNums (s : Str) : Str :=
  trimSpace
    ((splitC ' ' s).foldl
      (fun acc w =>
        let p := toneNumsWord w
        acc ++ p.1 ++ p.2 ++ [' '])
      [])

/-! ## `PinyinTones` (source lines 623-661) -/

/-- Models Go `strings.ReplaceAll(s, "u:", "ü")` (left-to-right,
non-overlapping). -/
def replaceUColon : Str → Str
  | [] => []
  | [x] => [x]
  | x :: y :: rest =>
    if x = 'u' ∧ y = ':' then 'ü' :: replaceUColon rest
    else x :: replaceUColon (y :: rest)

/-- Helper of `guessToneIndex`: first vowel of the priority list present in
the word, returned as the (rune) index of its first occurrence. -/
def guessAux : List Char → Str → Option Nat
  | [], _ => none
  | v :: vs, w =>
    match idxOfC v w with
    | some i => some i
    | none => guessAux vs w

/-- Source `guessToneIndex` (lines 681-690); `none` models the `-1` return.
The source converts its byte index into a rune index, which is what
`idxOfC` produces directly. -/
def guessToneIndex (w : Str) : Option Nat := guessAux vowels w

/-- One word of `PinyinTones`. `none` models the two runtime panics of the
source: `runes[i]` when the digit sat before the guessed vowel, and indexing
the nil slice `mapNumToTone[k]` when `k` is not a key. The tone digit is
found by byte index in the source, but it is ASCII and every byte index the
source slices at is a rune boundary, so erasing the digit's rune is exact. -/
def tonesWord (w : Str) : Option Str :=
  match guessToneIndex w with
  | none => some w
  | some i =>
    match firstIdxAny toneNums w with
    | none => some w
    | some ni =>
      let tone : Int := ((w.getD ni ' ').toNat : Int) - ('0'.toNat : Int) - 1
      if tone < 0 ∨ (mapNumToToneSize : Int) ≤ tone then some w
      else
        let w' := w.eraseIdx ni
        match w'[i]? with
        | none => none
        | some k =>
          match mapNumToTone k with
          | none => none
          | some row =>
            (row[tone.toNat]?).map
              (fun tc => w'.take i ++ [tc] ++ w'.drop (i + 1))

/-- Source `PinyinTones`: converts tone numbers into diacritics word by word;
`none` models a panic in any word. -/
def PinyinTones (s : Str) : Option Str :=
  let s' := replaceUColon s
  ((splitC ' ' s').foldl
      (fun acc w => acc.bind (fun r => (tonesWord w).map (fun pw => r ++ pw ++ [' '])))
      (some [])).map trimSpace

/-! ## Lemmas about the basic string helpers -/

theorem idxOfC_eq_some {c : Char} {w : Str} {i : Nat} (h : idxOfC c w = some i) :
    w[i]? = some c := by
  induction w generalizing i with
  | nil => simp [idxOfC] at h
  | cons x xs ih =>
    by_cases hx : x = c
    · simp [idxOfC, hx] at h
      subst h
      simp [hx]
    · simp [idxOfC, hx] at h
      obtain ⟨j, hj, rfl⟩ := h
      simpa using ih hj

theorem idxOfC_eq_none {c : Char} {w : Str} (h : idxOfC c w = none) : c ∉ w := by
  induction w with
  | nil => simp
  | cons x xs ih =>
    by_cases hx : x = c
    · simp [idxOfC, hx] at h
    · simp [idxOfC, hx] at h
      simp [ih h]
      intro e
      exact hx e.symm

theorem guessAux_append (vs1 vs2 : List Char) (w : Str) :
    guessAux (vs1 ++ vs2) w =
      match guessAux vs1 w with
      | some i => some i
      | none => guessAux vs2 w := by
  induction vs1 with
  | nil => simp [guessAux]
  | cons v vs ih =>
    simp only [List.cons_append, guessAux]
    cases h : idxOfC v w <;> simp [ih]

theorem guessAux_eq_some {vs : List Char} {w : Str} {i : Nat}
    (h : guessAux vs w = some i) : ∃ v ∈ vs, w[i]? = some v := by
  induction vs with
  | nil => simp [guessAux] at h
  | cons v vs' ih =>
    simp only [guessAux] at h
    cases hv : idxOfC v w with
    | some j =>
      rw [hv] at h
      cases h
      exact ⟨v, by simp, idxOfC_eq_some hv⟩
    | none =>
      rw [hv] at h
      obtain ⟨u, hu, hg⟩ := ih h
      exact ⟨u, by simp [hu], hg⟩

theorem guessAux_ne_none {vs : List Char} {w : Str} {v : Char}
    (hv : v ∈ vs) (hw : v ∈ w) : guessAux vs w ≠ none := by
  induction vs with
  | nil => simp at hv
  | cons u vs' ih =>
    simp only [guessAux]
    cases hu : idxOfC u w with
    | some j => simp
    | none =>
      simp only []
      rcases List.mem_cons.mp hv with rfl | hv'
      · exact absurd hw (idxOfC_eq_none hu)
      · exact ih hv'

theorem firstIdxAny_eq_some {cs : List Char} {w : Str} {i : Nat}
    (h : firstIdxAny cs w = some i) : ∃ c ∈ cs, w[i]? = some c := by
  induction w generalizing i with
  | nil => simp [firstIdxAny] at h
  | cons x xs ih =>
    by_cases hx : x ∈ cs
    · simp [firstIdxAny, hx] at h
      subst h
      exact ⟨x, hx, by simp⟩
    · simp [firstIdxAny, hx] at h
      obtain ⟨j, hj, rfl⟩ := h
      simpa using ih hj

theorem firstIdxAny_append_last {cs : List Char} {stem : Str} {d : Char}
    (hstem : ∀ c ∈ stem, c ∉ cs) (hd : d ∈ cs) :
    firstIdxAny cs (stem ++ [d]) = some stem.length := by
  induction stem with
  | nil => simp [firstIdxAny, hd]
  | cons x xs ih =>
    have hx : x ∉ cs := hstem x (by simp)
    simp only [List.cons_append, firstIdxAny, if_neg hx, List.length_cons,
      List.append_eq]
    rw [ih (fun c hc => hstem c (by simp [hc]))]
    rfl

theorem getD_append_last (stem : Str) (d e : Char) :
    (stem ++ [d]).getD stem.length e = d := by
  induction stem with
  | nil => rfl
  | cons x xs ih => simp [ih]

theorem eraseIdx_append_last (stem : Str) (d : Char) :
    (stem ++ [d]).eraseIdx stem.length = stem := by
  induction stem with
  | nil => rfl
  | cons x xs ih => simpa [List.eraseIdx] using ih

theorem get_append_left {stem : Str} {i : Nat} (rest : Str)
    (h : i < stem.length) : (stem ++ rest)[i]? = stem[i]? := by
  rw [List.getElem?_append_left h]

theorem take_get_drop {l : Str} {i : Nat} {v : Char} (h : l[i]? = some v) :
    l.take i ++ [v] ++ l.drop (i + 1) = l := by
  induction l generalizing i with
  | nil => simp at h
  | cons x xs ih =>
    cases i with
    | zero =>
      simp at h
      subst h
      simp
    | succ j =>
      simp at h
      simpa using ih h

theorem splitC_single {w : Str} {c : Char} (h : c ∉ w) : splitC c w = [w] := by
  induction w with
  | nil => rfl
  | cons x xs ih =>
    have hx : ¬(x = c) := by
      intro e
      exact h (by simp [e])
    have hxs : c ∉ xs := fun hc => h (by simp [hc])
    simp only [splitC, if_neg hx, ih hxs]

theorem dropWhile_eq_self_of_all {p : Char → Bool} {l : Str}
    (h : ∀ c ∈ l, p c = false) : l.dropWhile p = l := by
  cases l with
  | nil => rfl
  | cons x xs => simp [List.dropWhile_cons, h x (by simp)]

theorem trimSpace_all_nonspace {l : Str} (h : ∀ c ∈ l, isSp c = false) :
    trimSpace l = l := by
  unfold trimSpace
  rw [dropWhile_eq_self_of_all h, dropWhile_eq_self_of_all, List.reverse_reverse]
  intro c hc
  exact h c (List.mem_reverse.mp hc)

theorem trimSpace_append_space {l : Str} (h : ∀ c ∈ l, isSp c = false) :
    trimSpace (l ++ [' ']) = l := by
  unfold trimSpace
  cases l with
  | nil => simp [List.dropWhile, isSp]
  | cons x xs =>
    have hx : isSp x = false := h x (by simp)
    rw [List.cons_append, List.dropWhile_cons, hx]
    simp only [Bool.false_eq_true, if_false, List.reverse_append,
      List.reverse_cons, List.reverse_nil, List.nil_append, List.cons_append,
      List.dropWhile_cons]
    have hsp : isSp ' ' = true := by decide
    rw [hsp]
    simp only [if_true]
    rw [dropWhile_eq_self_of_all, List.reverse_append, List.reverse_reverse]
    · rfl
    · intro c hc
      apply h
      rcases List.mem_append.mp hc with h1 | h2
      · exact List.mem_cons_of_mem x (List.mem_reverse.mp h1)
      · simp at h2
        simp [h2]

theorem replaceUColon_id {w : Str} (h : ':' ∉ w) : replaceUColon w = w := by
  induction w using replaceUColon.induct with
  | case1 => rfl
  | case2 x => rfl
  | case3 x y rest huy ih =>
    exfalso
    exact h (by simp [huy.2])
  | case4 x y rest huy ih =>
    rw [replaceUColon, if_neg huy, ih (fun hc => h (by simp [hc]))]

/-! ## Claim C3: tone codec round trip -/

/-- The claim's vowel/digit alphabet: the defined vowels plus tone digits. -/
def toneAlphabet : List Char := vowels ++ toneNums

/-- Stem characters for the amended round-trip statement: the defined plain
vowels except `ü` (which `PinyinToneNums` rewrites to `u:`). -/
def stemChars : List Char := ['A', 'a', 'E', 'e', 'i', 'O', 'o', 'u', 'r']

/-- Vowels whose tone variants are distinct glyphs (everything except the
erhua `r`, whose five variants are all `r`, and `ü`). -/
def coreVowels : List Char := ['A', 'a', 'E', 'e', 'i', 'O', 'o', 'u']

/-- Digit character for a tone row index. -/
def digitOfTone : Nat → Char
  | 0 => '1'
  | 1 => '2'
  | 2 => '3'
  | 3 => '4'
  | _ => ' '

/-- The tone cell used by `tonesWord`: row of the base vowel, entry of the
tone index. -/
def toneCell (v : Char) (t : Nat) : Option Char :=
  (mapNumToTone v).bind (fun r => r[t]?)

/-- Boolean check that a tone cell exists and maps back through
`mapToneToNum` to its base vowel and tone digit. -/
def toneCellOk (v : Char) (t : Nat) : Bool :=
  match toneCell v t with
  | some tc =>
    (mapToneToNum tc == some ([v], [digitOfTone t])) && !(isSp tc) &&
      !(toneNums.contains tc)
  | none => false

theorem toneTable_ok : ∀ v ∈ coreVowels, ∀ t ∈ ([0, 1, 2, 3] : List Nat),
    toneCellOk v t = true := by decide

theorem toneCellOk_spec {v : Char} {t : Nat} (h : toneCellOk v t = true) :
    ∃ tc, toneCell v t = some tc ∧
      mapToneToNum tc = some ([v], [digitOfTone t]) ∧ isSp tc = false ∧
      tc ∉ toneNums := by
  unfold toneCellOk at h
  cases hc : toneCell v t with
  | none => rw [hc] at h; simp at h
  | some tc =>
    rw [hc] at h
    simp only [Bool.and_eq_true, beq_iff_eq, Bool.not_eq_true'] at h
    refine ⟨tc, rfl, h.1.1, h.1.2, fun hm => ?_⟩
    rw [List.contains_eq_any_beq] at h
    simp only [List.any_eq_false, beq_eq_false_iff_ne, ne_eq] at h
    exact h.2 tc hm (beq_self_eq_true tc)

theorem stemChars_plain : ∀ c ∈ stemChars,
    mapToneToNum c = none ∧ isSp c = false ∧ c ∉ toneNums ∧ c ≠ ':' ∧ c ≠ ' ' := by
  decide

theorem toneNumsWord_plain_seg {xs : Str} (h : ∀ c ∈ xs, mapToneToNum c = none) :
    ∀ acc tone, xs.foldl
      (fun acc r =>
        match mapToneToNum r with
        | some p => (acc.1 ++ p.1, p.2)
        | none => (acc.1 ++ [r], acc.2)) (acc, tone) = (acc ++ xs, tone) := by
  induction xs with
  | nil => intro acc tone; simp
  | cons x xs ih =>
    intro acc tone
    have hx := h x (by simp)
    simp only [List.foldl_cons, hx]
    rw [ih (fun c hc => h c (by simp [hc]))]
    simp

theorem toneNumsWord_one_accent {xs ys : Str} {tc : Char} {b t : Str}
    (hxs : ∀ c ∈ xs, mapToneToNum c = none)
    (hys : ∀ c ∈ ys, mapToneToNum c = none)
    (htc : mapToneToNum tc = some (b, t)) :
    toneNumsWord (xs ++ [tc] ++ ys) = (xs ++ b ++ ys, t) := by
  unfold toneNumsWord
  rw [List.foldl_append, List.foldl_append]
  rw [toneNumsWord_plain_seg hxs]
  simp only [List.foldl_cons, List.foldl_nil, htc]
  rw [toneNumsWord_plain_seg hys]
  simp

theorem stemChars_facts : vowels = coreVowels ++ (['ü', 'r'] : List Char) ∧
    (∀ c ∈ coreVowels, c ∈ stemChars) ∧
    (∀ c ∈ toneNums, c ∉ coreVowels ∧ isSp c = false ∧ c ≠ ':' ∧ c ≠ ' ') ∧
    (∀ c ∈ (['1', '2', '3', '4'] : List Char), c ∈ toneNums) := by
  decide

theorem tonesWord_core {stem : Str} {d : Char} {t : Nat}
    (hset : ∀ c ∈ stem, c ∈ stemChars)
    (hcore : ∃ c ∈ stem, c ∈ coreVowels)
    (hdt : d ∈ toneNums)
    (ht4 : t ∈ ([0, 1, 2, 3] : List Nat))
    (htv : (d.toNat : Int) - ('0'.toNat : Int) - 1 = (t : Int)) :
    ∃ i v tc, i < stem.length ∧ stem[i]? = some v ∧ v ∈ coreVowels ∧
      toneCell v t = some tc ∧
      tonesWord (stem ++ [d]) =
        some (stem.take i ++ [tc] ++ stem.drop (i + 1)) := by
  obtain ⟨u, humem, hucore⟩ := hcore
  have hg_ne : guessAux coreVowels (stem ++ [d]) ≠ none :=
    guessAux_ne_none hucore (List.mem_append_left _ humem)
  cases hga : guessAux coreVowels (stem ++ [d]) with
  | none => exact absurd hga hg_ne
  | some i =>
    obtain ⟨v, hvcore, hvget⟩ := guessAux_eq_some hga
    have hguess : guessToneIndex (stem ++ [d]) = some i := by
      unfold guessToneIndex
      rw [stemChars_facts.1, guessAux_append, hga]
    have hi : i < stem.length := by
      by_contra hge
      push_neg at hge
      rw [List.getElem?_append_right hge] at hvget
      have hz : i - stem.length = 0 := by
        cases hidx : i - stem.length with
        | zero => rfl
        | succ n => rw [hidx] at hvget; simp at hvget
      rw [hz] at hvget
      simp at hvget
      exact (stemChars_facts.2.2.1 d hdt).1 (hvget ▸ hvcore)
    have hstemget : stem[i]? = some v := by
      rw [List.getElem?_append_left hi] at hvget
      exact hvget
    have hnostemdigit : ∀ c ∈ stem, c ∉ toneNums :=
      fun c hc => (stemChars_plain c (hset c hc)).2.2.1
    have hni : firstIdxAny toneNums (stem ++ [d]) = some stem.length :=
      firstIdxAny_append_last hnostemdigit hdt
    have hok := toneTable_ok v hvcore t ht4
    obtain ⟨tc, hcell, hback, hspc, hnotd⟩ := toneCellOk_spec hok
    obtain ⟨row, hrow, hcellrow⟩ := Option.bind_eq_some.mp hcell
    refine ⟨i, v, tc, hi, hstemget, hvcore, hcell, ?_⟩
    have htlt : ¬((t : Int) < 0 ∨ (mapNumToToneSize : Int) ≤ (t : Int)) := by
      push_neg
      refine ⟨Int.ofNat_nonneg t, ?_⟩
      have h10 : t < 10 := by
        simp at ht4
        omega
      unfold mapNumToToneSize
      omega
    unfold tonesWord
    simp only [hguess, hni, getD_append_last, htv, if_neg htlt,
      eraseIdx_append_last, hstemget, hrow, Int.toNat_ofNat, hcellrow]
    rfl

theorem pinyinTones_on_stem {stem : Str} {d : Char} {t : Nat}
    (hset : ∀ c ∈ stem, c ∈ stemChars)
    (hcore : ∃ c ∈ stem, c ∈ coreVowels)
    (hdt : d ∈ toneNums)
    (ht4 : t ∈ ([0, 1, 2, 3] : List Nat))
    (htv : (d.toNat : Int) - ('0'.toNat : Int) - 1 = (t : Int)) :
    ∃ i v tc, i < stem.length ∧ stem[i]? = some v ∧ v ∈ coreVowels ∧
      toneCell v t = some tc ∧
      PinyinTones (stem ++ [d]) =
        some (stem.take i ++ [tc] ++ stem.drop (i + 1)) := by
  obtain ⟨i, v, tc, hi, hget, hvcore, hcell, hword⟩ :=
    tonesWord_core hset hcore hdt ht4 htv
  refine ⟨i, v, tc, hi, hget, hvcore, hcell, ?_⟩
  have hnocolon : ':' ∉ stem ++ [d] := by
    intro hc
    rcases List.mem_append.mp hc with h1 | h2
    · exact (stemChars_plain _ (hset _ h1)).2.2.2.1 rfl
    · simp at h2
      exact (stemChars_facts.2.2.1 d hdt).2.2.1 h2.symm
  have hnospace : ' ' ∉ stem ++ [d] := by
    intro hc
    rcases List.mem_append.mp hc with h1 | h2
    · exact (stemChars_plain _ (hset _ h1)).2.2.2.2 rfl
    · simp at h2
      exact (stemChars_facts.2.2.1 d hdt).2.2.2 h2.symm
  have hspall : ∀ c ∈ stem.take i ++ [tc] ++ stem.drop (i + 1), isSp c = false := by
    intro c hc
    rcases List.mem_append.mp hc with h1 | h2
    · rcases List.mem_append.mp h1 with h3 | h4
      · exact (stemChars_plain _ (hset _ (List.take_subset i stem h3))).2.1
      · simp at h4
        subst h4
        obtain ⟨tc', hcell', _, hsp', _⟩ := toneCellOk_spec (toneTable_ok v hvcore t ht4)
        rw [hcell] at hcell'
        cases hcell'
        exact hsp'
    · exact (stemChars_plain _ (hset _ (List.drop_subset (i + 1) stem h2))).2.1
  unfold PinyinTones
  simp only [replaceUColon_id hnocolon, splitC_single hnospace,
    List.foldl_cons, List.foldl_nil, Option.bind_eq_bind, Option.some_bind,
    hword, Option.map_some', List.nil_append]
  have hts := trimSpace_append_space hspall
  simp only [Option.map_some', List.append_assoc] at hts ⊢
  rw [hts]

/-- Claim C3 counterexample: the token `a5` lies in the defined vowel/digit
alphabet, yet `PinyinToneNums (PinyinTones "a5")` is `"a"`, not `"a5"`:
tone digit 5 is dropped by `PinyinTones` (neutral tone has no diacritic), so
the round trip cannot restore it. -/
theorem tone_roundtrip_fails_on_a5 :
    (∀ c ∈ (['a', '5'] : Str), c ∈ toneAlphabet) ∧
      (PinyinTones ['a', '5']).map PinyinToneNums = some ['a'] ∧
      (['a'] : Str) ≠ ['a', '5'] := by
  decide

/-- Claim C3 (amended): for every token made of a non-empty stem over the
plain vowels `A a E e i O o u r` (so excluding `ü`, which `PinyinToneNums`
rewrites to `u:`), containing at least one vowel other than `r`, followed by
exactly one tone digit in `1`-`4`, converting numbered notation to diacritic
notation and back is the identity: `PinyinToneNums (PinyinTones w) = w`. -/
theorem tone_roundtrip_amended (stem : Str) (d : Char)
    (h1 : ∀ c ∈ stem, c ∈ stemChars)
    (h2 : ∃ c ∈ stem, c ∈ coreVowels)
    (h3 : d ∈ (['1', '2', '3', '4'] : List Char)) :
    (PinyinTones (stem ++ [d])).map PinyinToneNums = some (stem ++ [d]) := by
  have hdt : d ∈ toneNums := stemChars_facts.2.2.2 d h3
  have hex : ∃ t ∈ ([0, 1, 2, 3] : List Nat),
      (d.toNat : Int) - ('0'.toNat : Int) - 1 = (t : Int) ∧ digitOfTone t = d := by
    simp only [List.mem_cons, List.not_mem_nil, or_false] at h3
    rcases h3 with rfl | rfl | rfl | rfl
    · exact ⟨0, by simp, by decide, rfl⟩
    · exact ⟨1, by simp, by decide, rfl⟩
    · exact ⟨2, by simp, by decide, rfl⟩
    · exact ⟨3, by simp, by decide, rfl⟩
  obtain ⟨t, ht4, htv, hdig⟩ := hex
  obtain ⟨i, v, tc, hi, hget, hvcore, hcell, hpt⟩ :=
    pinyinTones_on_stem h1 h2 hdt ht4 htv
  rw [hpt, Option.map_some']
  congr 1
  obtain ⟨tc', hcell', hback, hsp, hnotd⟩ := toneCellOk_spec (toneTable_ok v hvcore t ht4)
  rw [hcell] at hcell'
  cases hcell'
  have hxs : ∀ c ∈ stem.take i, mapToneToNum c = none :=
    fun c hc => (stemChars_plain c (h1 c (List.take_subset i stem hc))).1
  have hys : ∀ c ∈ stem.drop (i + 1), mapToneToNum c = none :=
    fun c hc => (stemChars_plain c (h1 c (List.drop_subset (i + 1) stem hc))).1
  have hword := toneNumsWord_one_accent hxs hys hback
  have hnospace : ' ' ∉ stem.take i ++ [tc] ++ stem.drop (i + 1) := by
    intro hc
    rcases List.mem_append.mp hc with h1' | h2'
    · rcases List.mem_append.mp h1' with h3 | h4
      · exact (stemChars_plain _ (h1 _ (List.take_subset i stem h3))).2.2.2.2 rfl
      · simp at h4
        rw [← h4] at hsp
        exact absurd hsp (by decide)
    · exact (stemChars_plain _ (h1 _ (List.drop_subset (i + 1) stem h2'))).2.2.2.2 rfl
  unfold PinyinToneNums
  rw [splitC_single hnospace]
  simp only [List.foldl_cons, List.foldl_nil, hword, List.nil_append]
  rw [hdig]
  have hall : ∀ c ∈ (stem.take i ++ [v] ++ stem.drop (i + 1)) ++ [d], isSp c = false := by
    intro c hc
    rcases List.mem_append.mp hc with h1' | h2'
    · rcases List.mem_append.mp h1' with h3 | h4
      · rcases List.mem_append.mp h3 with h5 | h6
        · exact (stemChars_plain _ (h1 _ (List.take_subset i stem h5))).2.1
        · simp at h6
          subst h6
          exact (stemChars_plain _ (stemChars_facts.2.1 c hvcore)).2.1
      · exact (stemChars_plain _ (h1 _ (List.drop_subset (i + 1) stem h4))).2.1
    · simp at h2'
      subst h2'
      exact (stemChars_facts.2.2.1 c hdt).2.1
  calc trimSpace (stem.take i ++ [v] ++ stem.drop (i + 1) ++ [d] ++ [' '])
      = trimSpace ((stem.take i ++ [v] ++ stem.drop (i + 1) ++ [d]) ++ [' ']) := by
        simp [List.append_assoc]
    _ = stem.take i ++ [v] ++ stem.drop (i + 1) ++ [d] := trimSpace_append_space hall
    _ = stem ++ [d] := by rw [take_get_drop hget]

/-- Witness for the amended C3 theorem at the concrete token `a1`. -/
theorem tone_roundtrip_amended_witness :
    (PinyinTones (['a'] ++ ['1'])).map PinyinToneNums = some (['a'] ++ ['1']) :=
  tone_roundtrip_amended ['a'] '1' (by decide) ⟨'a', by decide, by decide⟩ (by decide)

/-! ## Data model (source `Entry`, `Metadata`, `Dict`) -/

/-- Source `Entry` struct. -/
structure Entry where
  Traditional : Str
  Simplified : Str
  Pinyin : Str
  Meanings : List Str
deriving DecidableEq, Repr, Inhabited

/-- Simplified RFC 3339 timestamp. Modelled from Go `time.Parse(time.RFC3339, v)`
restricted to the `YYYY-MM-DDThh:mm:ssZ` shape (offsets and fractional
seconds omitted; the claims below never depend on them, only on the parse
being a deterministic partial function of the text). -/
structure Rfc where
  y : Nat
  mo : Nat
  d : Nat
  h : Nat
  mi : Nat
  s : Nat
deriving DecidableEq, Repr

/-- Source `Metadata` struct; the zero `time.Time` is modelled as `none`. -/
structure Metadata where
  Version : Int
  Subversion : Int
  Format : Str
  Charset : Str
  Entries : Int
  Publisher : Str
  License : Str
  Timestamp : Option Rfc
deriving DecidableEq, Repr

/-- Zero value of `Metadata`, as produced by `newDict`. -/
def initMetadata : Metadata :=
  ⟨0, 0, [], [], 0, [], [], none⟩

/-- Parsed dictionary content (source `Dict` minus the concurrency fields,
which are modelled separately by `LDict`). -/
structure Dict where
  header : List Str
  md : Metadata
  e : List Entry
deriving DecidableEq, Repr

/-- Parse errors; each constructor corresponds to one `errors.New` /
`errors.Wrap` site of the source and carries the offending text. -/
inductive PErr where
  | versionNum (v : Str)
  | subversionNum (v : Str)
  | entriesNum (v : Str)
  | dateFmt (v : Str)
  | unmarshalBracket (line : Str)
  | unmarshalScan (line : Str)
  | unmarshalHanzi (line : Str)
  | countMismatch (loaded : Nat) (declared : Int)
deriving DecidableEq, Repr

/-! ## Small parsing helpers -/

/-- Value of an ASCII digit. -/
def digitVal (c : Char) : Option Nat :=
  if '0' ≤ c ∧ c ≤ '9' then some (c.toNat - '0'.toNat) else none

/-- Digit-string accumulator for `atoi`. -/
def natOfDigits (s : Str) : Option Nat :=
  s.foldl (fun acc c => acc.bind (fun n => (digitVal c).map (fun d => n * 10 + d)))
    (some 0)

/-- Models Go `strconv.Atoi`: optional sign, then one or more decimal digits
(64-bit overflow is not modelled; no claim depends on it). -/
def atoi (s : Str) : Option Int :=
  match s with
  | [] => none
  | '+' :: rest => if rest = [] then none else (natOfDigits rest).map Int.ofNat
  | '-' :: rest =>
    if rest = [] then none else (natOfDigits rest).map (fun n => -(Int.ofNat n))
  | _ => (natOfDigits s).map Int.ofNat

/-- Two-digit number. -/
def twoDigits (a b : Char) : Option Nat :=
  (digitVal a).bind (fun x => (digitVal b).map (fun y => x * 10 + y))

/-- Simplified model of `time.Parse(time.RFC3339, s)`; see `Rfc`. -/
def parseRfc3339 (s : Str) : Option Rfc :=
  match s with
  | [y1, y2, y3, y4, '-', a1, a2, '-', b1, b2, 'T', h1, h2, ':', m1, m2, ':',
     c1, c2, 'Z'] =>
    (natOfDigits [y1, y2, y3, y4]).bind fun y =>
      (twoDigits a1 a2).bind fun mo =>
        (twoDigits b1 b2).bind fun d =>
          (twoDigits h1 h2).bind fun h =>
            (twoDigits m1 m2).bind fun mi =>
              (twoDigits c1 c2).bind fun sec =>
                if 1 ≤ mo ∧ mo ≤ 12 ∧ 1 ≤ d ∧ d ≤ 31 ∧ h ≤ 23 ∧ mi ≤ 59 ∧
                    sec ≤ 59 then
                  some ⟨y, mo, d, h, mi, sec⟩
                else none
  | _ => none

/-- Models Go `strings.HasPrefix`. -/
def startsWith : Str → Str → Bool
  | [], _ => true
  | _ :: _, [] => false
  | p :: ps, x :: xs => p = x && startsWith ps xs

/-- Split at every character satisfying `p` (like `splitC` but by predicate);
used to model the whitespace tokenization performed by `fmt.Sscanf` with
two `%s` verbs. -/
def splitP (p : Char → Bool) : Str → List Str
  | [] => [[]]
  | x :: xs =>
    if p x then [] :: splitP p xs
    else
      match splitP p xs with
      | [] => [[x]]
      | h :: t => (x :: h) :: t

/-- Whitespace tokens of a string (the successive non-empty `%s` matches that
`fmt.Sscanf` would produce). -/
def wsTokens (s : Str) : List Str :=
  (splitP isSp s).filter (fun w => w ≠ [])

/-- Concatenate with a separator character; models `strings.Join`. -/
def joinSep (c : Char) : List Str → Str
  | [] => []
  | [m] => m
  | m :: ms => m ++ c :: joinSep c ms

/-! ## `Entry.Unmarshal` (source lines 526-554) and `Entry.Marshal`
(lines 517-522) -/

/-- Source `Entry.Unmarshal`. `none` models the two slice panics:
`fields[0][off+1:end]` when the first `]` precedes the first `[`, and
`fields[1:len(fields)-1]` when the line contains no `/` at all. The
`fmt.Sscanf(chars, "%s %s ", ...)` call is modelled by whitespace
tokenization: with fewer than two tokens it reports an EOF error
(`unmarshalScan`); with two or more it fills the first two and ignores the
rest, returning `n = 2`, so the source's `n != 2` branch
(`unmarshalHanzi`) is unreachable. -/
def Unmarshal (s : Str) : Option (Except PErr Entry) :=
  let fields := splitC '/' s
  let f0 := fields.headD []
  match idxOfC '[' f0, idxOfC ']' f0 with
  | some off, some close =>
    if off + 1 ≤ close then
      let chars := f0.take off
      let pinyin := (f0.take close).drop (off + 1)
      match wsTokens chars with
      | trad :: sim :: _ =>
        if 2 ≤ fields.length then
          some (Except.ok
            { Traditional := trad, Simplified := sim, Pinyin := pinyin,
              Meanings := (fields.drop 1).dropLast })
        else none
      | _ => some (Except.error (PErr.unmarshalScan s))
    else none
  | _, _ => some (Except.error (PErr.unmarshalBracket s))

/-- Source `Entry.Marshal`: `"%s %s [%s] %s"` with the meanings joined and
wrapped in slashes. -/
def Marshal (e : Entry) : Str :=
  e.Traditional ++ ' ' :: e.Simplified ++ ' ' :: '[' :: e.Pinyin ++
    ']' :: ' ' :: '/' :: (joinSep '/' e.Meanings ++ ['/'])

/-! ## `Parse` (source lines 85-169) -/

/-- Effect of one recognized `#!` metadata key on the metadata record.
Mirrors the `switch k` of the source. -/
def mdApply (k v : Str) (md : Metadata) : Except PErr Metadata :=
  if k = "version".data then
    match atoi v with
    | some n => .ok { md with Version := n }
    | none => .error (.versionNum v)
  else if k = "subversion".data then
    match atoi v with
    | some n => .ok { md with Subversion := n }
    | none => .error (.subversionNum v)
  else if k = "format".data then .ok { md with Format := v }
  else if k = "charset".data then .ok { md with Charset := v }
  else if k = "entries".data then
    match atoi v with
    | some n => .ok { md with Entries := n }
    | none => .error (.entriesNum v)
  else if k = "publisher".data then .ok { md with Publisher := v }
  else if k = "license".data then .ok { md with License := v }
  else if k = "date".data then
    match parseRfc3339 v with
    | some r => .ok { md with Timestamp := some r }
    | none => .error (.dateFmt v)
  else .ok md

/-- Metadata update of a `#!` header line. The source computes
`i := strings.Index(line, "=")`, `v := line[i+1:]`, `k := line[3:i]`; the
slice `line[3:i]` panics unless `3 ≤ i`, in particular whenever the line has
no `=` (`i = -1`). `none` models that panic. -/
def procMeta (line : Str) (md : Metadata) : Option (Except PErr Metadata) :=
  match idxOfC '=' line with
  | none => none
  | some i =>
    if i < 3 then none
    else
      let v := line.drop (i + 1)
      let k := (line.take i).drop 3
      some (mdApply k v md)

/-- Accumulated parser state of the scan loop of `Parse`. -/
structure PState where
  header : List Str
  md : Metadata
  es : List Entry
deriving DecidableEq, Repr

/-- Initial state (`newDict`). -/
def initState : PState := ⟨[], initMetadata, []⟩

/-- One iteration of the scan loop of `Parse`. -/
def procLine (st : PState) (line : Str) : Option (Except PErr PState) :=
  if startsWith ['#'] line then
    let st1 : PState := { st with header := st.header ++ [line] }
    if startsWith ['#', '!'] line then
      match procMeta line st1.md with
      | none => none
      | some (.error e) => some (.error e)
      | some (.ok md') => some (.ok { st1 with md := md' })
    else some (.ok st1)
  else
    match Unmarshal line with
    | none => none
    | some (.error e) => some (.error e)
    | some (.ok en) => some (.ok { st with es := st.es ++ [en] })

/-- The scan loop of `Parse` over a list of lines. -/
def procLines (st : PState) : List Str → Option (Except PErr PState)
  | [] => some (.ok st)
  | l :: ls =>
    match procLine st l with
    | none => none
    | some (.error e) => some (.error e)
    | some (.ok st') => procLines st' ls

/-- Models `bufio.Scanner` line splitting (`bufio.ScanLines`): tokens are the
text between newlines, a single trailing carriage return is dropped from
each token, and a final empty token (input ending in a newline) is not
produced. -/
def dropCR (l : Str) : Str :=
  if l.getLast? = some '\r' then l.dropLast else l

/-- Lines of an input text, per `bufio.ScanLines`. -/
def linesOf (t : Str) : List Str :=
  let ps := splitC '\n' t
  let ps' := if ps.getLast? = some [] then ps.dropLast else ps
  ps'.map dropCR

/-- Source `Parse`: scan all lines, then check the declared entry count.
`none` models a panic inside the scan loop. -/
def Parse (t : Str) : Option (Except PErr Dict) :=
  match procLines initState (linesOf t) with
  | none => none
  | some (.error e) => some (.error e)
  | some (.ok st) =>
    if (st.es.length : Int) = st.md.Entries then
      some (.ok ⟨st.header, st.md, st.es⟩)
    else some (.error (.countMismatch st.es.length st.md.Entries))

/-- Line terminator used by `Save` (source `LineEnding = "\r\n"`). -/
def CRLF : Str := ['\r', '\n']

/-- The header part of `Save`: every header line except the last is followed
by the line terminator. -/
def writeHeaderLines : List Str → Str
  | [] => []
  | [l] => l
  | l :: ls => l ++ CRLF ++ writeHeaderLines ls

/-- Byte stream written by `Save` (source lines 259-296; the file handling
and optional gzip wrapper are I/O plumbing outside the serialization
itself): header lines joined by the terminator, then each entry preceded by
the terminator. -/
def Serialize (d : Dict) : Str :=
  writeHeaderLines d.header ++ d.e.foldl (fun acc e => acc ++ CRLF ++ Marshal e) []

/-! ## Lazy population lifecycle (source `Dict.lazyLoad`, `Dict.Err`;
claim C1) -/

/-- State of a lazily populated dictionary: the readiness flag (the closed
`ready` channel), the captured error and the populated content. -/
structure LDict where
  ready : Bool
  err : Option Str
  header : List Str
  md : Metadata
  e : List Entry
deriving DecidableEq, Repr

/-- Source `newDict`: not ready, no error, empty content. -/
def newLDict : LDict := ⟨false, none, [], initMetadata, []⟩

/-- Source `Dict.lazyLoad` as a state transition. The download + parse
attempt is an external input: `Except.error` is a failed download or parse,
`Except.ok` a successfully parsed dictionary. If the instance is not ready,
the source runs the attempt: on failure it stores the error and returns
(leaving `ready` unset), on success it copies the content and closes the
`ready` channel; `err` is never cleared. -/
def lazyLoad (d : LDict) (attempt : Except Str Dict) : LDict :=
  if d.ready then d
  else
    match attempt with
    | .error msg => { d with err := some msg }
    | .ok pd => { d with header := pd.header, md := pd.md, e := pd.e, ready := true }

/-- Source `Dict.Err`: runs `lazyLoad`, then reports the stored error. The
result is the new state paired with the returned error. -/
def ErrCall (d : LDict) (attempt : Except Str Dict) : LDict × Option Str :=
  let d' := lazyLoad d attempt
  (d', d'.err)

/-! ## Claim C1: lazy-population failure behaviour -/

/-- Sample parsed dictionary used by the C1 refutation. -/
def sampleDict : Dict := ⟨["# x".data], initMetadata, []⟩

/-- Claim C1 counterexample: after a failed population attempt the instance
is not ready, so the next blocking call re-runs the attempt (the source
re-enters the download/parse branch whenever `ready` is unset): a later
successful attempt makes the instance ready — contradicting "never becomes
ready afterwards" and "without re-attempting population" — and a later
failed attempt overwrites the captured error with the new one —
contradicting "returns that same captured error". -/
theorem lazyLoad_failure_not_sticky :
    (lazyLoad newLDict (Except.error "e1".data)).ready = false ∧
    (lazyLoad (lazyLoad newLDict (Except.error "e1".data))
        (Except.ok sampleDict)).ready = true ∧
    (ErrCall (lazyLoad newLDict (Except.error "e1".data))
        (Except.error "e2".data)).2 = some "e2".data := by
  decide

/-- Claim C1 (amended): a population failure is recorded in `err` and leaves
the instance not ready; `err` is never cleared; but later blocking calls
re-attempt population: a subsequent failure overwrites `err`, and a
subsequent success populates the content and marks the instance ready
(after which every further call leaves the state unchanged), while `Err`
keeps reporting the stale recorded error. -/
theorem lazyLoad_amended (d : LDict) (a : Except Str Dict) :
    (d.ready = true → lazyLoad d a = d) ∧
    (d.ready = false → ∀ msg, a = Except.error msg →
      lazyLoad d a = { d with err := some msg } ∧
        (lazyLoad d a).ready = false ∧
        (ErrCall d a).2 = some msg) ∧
    (d.ready = false → ∀ pd, a = Except.ok pd →
      (lazyLoad d a).ready = true ∧ (lazyLoad d a).err = d.err ∧
        (lazyLoad d a).e = pd.e ∧ (lazyLoad d a).md = pd.md ∧
        (lazyLoad d a).header = pd.header) := by
  refine ⟨fun hr => ?_, fun hr msg ha => ?_, fun hr pd ha => ?_⟩
  · simp [lazyLoad, hr]
  · subst ha
    refine ⟨by simp [lazyLoad, hr], by simp [lazyLoad, hr], ?_⟩
    simp [ErrCall, lazyLoad, hr]
  · subst ha
    simp [lazyLoad, hr]

/-- Witness for the amended C1 theorem: a concrete failed attempt on a fresh
instance records the error without readiness. -/
theorem lazyLoad_amended_witness :
    newLDict.ready = false ∧
      lazyLoad newLDict (Except.error "boom".data) =
        { newLDict with err := some "boom".data } ∧
      (lazyLoad newLDict (Except.error "boom".data)).ready = false ∧
      (ErrCall newLDict (Except.error "boom".data)).2 = some "boom".data :=
  ⟨rfl,
    ((lazyLoad_amended newLDict (Except.error "boom".data)).2.1 rfl
      "boom".data rfl).1,
    ((lazyLoad_amended newLDict (Except.error "boom".data)).2.1 rfl
      "boom".data rfl).2.1,
    ((lazyLoad_amended newLDict (Except.error "boom".data)).2.1 rfl
      "boom".data rfl).2.2⟩

/-! ## Claim C10: Parse panics on two malformed inputs -/

/-- Claim C10: the claim states that `Parse` is total at its interface and
never aborts with an out-of-bounds access. The code contradicts it on both
inputs the claim names: a `#!` header line without `=` makes
`line[3:i]` slice with `i = -1` (panic), and an entry line carrying a
bracket pair but no `/` makes `fields[1:len(fields)-1]` slice as
`fields[1:0]` (panic). `none` is the model of those panics. -/
theorem parse_panics_on_malformed :
    Parse ("#!x".data) = none ∧ Parse ("a b [p]".data) = none := by
  decide

/-! ## Claim C7: declared entry count check -/

/-- Claim C7: for every input whose scan loop finishes without a per-line
error, `Parse` returns a dictionary exactly when the number of parsed
entries equals the declared `entries` metadata value, and on mismatch it
returns the entry-count-mismatch error carrying both counts (no partial
dictionary). -/
theorem parse_entry_count (t : Str) (st : PState)
    (h : procLines initState (linesOf t) = some (Except.ok st)) :
    ((st.es.length : Int) = st.md.Entries →
      Parse t = some (Except.ok ⟨st.header, st.md, st.es⟩)) ∧
    ((st.es.length : Int) ≠ st.md.Entries →
      Parse t = some (Except.error (PErr.countMismatch st.es.length st.md.Entries))) := by
  have hP : Parse t =
      if (st.es.length : Int) = st.md.Entries then
        some (Except.ok ⟨st.header, st.md, st.es⟩)
      else some (Except.error (PErr.countMismatch st.es.length st.md.Entries)) := by
    simp only [Parse, h]
  exact ⟨fun he => by rw [hP, if_pos he], fun he => by rw [hP, if_neg he]⟩

/-- Witness for C7 at the concrete input `#! entries=1` with no entry lines:
the scan succeeds, the count differs (0 vs 1), and `Parse` reports the
mismatch error. -/
theorem parse_entry_count_witness :
    Parse ("#! entries=1".data) =
      some (Except.error (PErr.countMismatch 0 1)) := by
  have h : procLines initState (linesOf ("#! entries=1".data)) =
      some (Except.ok ⟨["#! entries=1".data], ⟨0, 0, [], [], 1, [], [], none⟩, []⟩) := by
    decide
  exact (parse_entry_count ("#! entries=1".data) _ h).2 (by decide)

/-! ## Claim C6: hanzi-field tokenization in `Entry.Unmarshal` -/

/-- Claim C6 counterexample: the entry line `a b c [p] /m/` has a bracket
pair and three whitespace tokens before `[`, yet `Unmarshal` succeeds
(taking the first two tokens), while the claim requires a fatal
"expected two hanzi fields" error for any token count other than two. -/
theorem unmarshal_extra_tokens_accepted :
    wsTokens (("a b c [p] /m/".data).take 6) =
      ["a".data, "b".data, "c".data] ∧
    Unmarshal ("a b c [p] /m/".data) =
      some (Except.ok ⟨"a".data, "b".data, "p".data, ["m".data]⟩) := by
  decide

/-- Claim C6 (amended): for an entry line whose first `/`-field has a
bracket pair in order, `Unmarshal` fails exactly when the text before `[`
tokenizes into fewer than two whitespace tokens, and then with the
`Sscanf` EOF error, not the "expected two hanzi fields" error; with two or
more tokens (and at least one `/` present) the first token becomes
`Traditional` and the second `Simplified`, extra tokens being ignored. The
"expected two hanzi fields" error is unreachable. -/
theorem unmarshal_tokens_amended (s : Str) (off close : Nat)
    (hoff : idxOfC '[' ((splitC '/' s).headD []) = some off)
    (hclose : idxOfC ']' ((splitC '/' s).headD []) = some close)
    (hle : off + 1 ≤ close) :
    ((wsTokens (((splitC '/' s).headD []).take off)).length < 2 →
      Unmarshal s = some (Except.error (PErr.unmarshalScan s))) ∧
    (∀ trad sim rest,
      wsTokens (((splitC '/' s).headD []).take off) = trad :: sim :: rest →
      2 ≤ (splitC '/' s).length →
      Unmarshal s = some (Except.ok
        ⟨trad, sim, (((splitC '/' s).headD []).take close).drop (off + 1),
          ((splitC '/' s).drop 1).dropLast⟩)) ∧
    (∀ l : Str, Unmarshal s ≠ some (Except.error (PErr.unmarshalHanzi l))) := by
  refine ⟨fun hlt => ?_, fun trad sim rest htok hf => ?_, fun l => ?_⟩
  · simp only [Unmarshal, hoff, hclose, if_pos hle]
    cases htok : wsTokens (((splitC '/' s).headD []).take off) with
    | nil => rfl
    | cons a tl =>
      cases tl with
      | nil => rfl
      | cons b tl2 =>
        rw [htok] at hlt
        simp at hlt
        omega
  · simp only [Unmarshal, hoff, hclose, if_pos hle, htok, if_pos hf]
  · simp only [Unmarshal]
    cases h1 : idxOfC '[' ((splitC '/' s).headD []) with
    | none => simp
    | some o =>
      cases h2 : idxOfC ']' ((splitC '/' s).headD []) with
      | none => simp
      | some c =>
        by_cases h3 : o + 1 ≤ c
        · simp only [if_pos h3]
          cases wsTokens (((splitC '/' s).headD []).take o) with
          | nil => simp
          | cons a tl =>
            cases tl with
            | nil => simp
            | cons b tl2 =>
              by_cases h4 : 2 ≤ (splitC '/' s).length
              · simp [if_pos h4]
              · simp [if_neg h4]
        · simp [if_neg h3]

/-- Witness for the amended C6 theorem at `a [p] /m/` (one token: scan
error). -/
theorem unmarshal_tokens_amended_witness :
    Unmarshal ("a [p] /m/".data) =
      some (Except.error (PErr.unmarshalScan ("a [p] /m/".data))) := by
  have h := unmarshal_tokens_amended ("a [p] /m/".data) 2 4 (by decide)
    (by decide) (by decide)
  exact h.1 (by decide)

/-! ## Claim C2: serialize / parse round trip -/

/-- The dictionary parsed from `#! entries=1\r\na b [p] /` (one entry with
zero meanings). -/
def dictNoMeanings : Dict :=
  ⟨["#! entries=1".data], ⟨0, 0, [], [], 1, [], [], none⟩,
    [⟨"a".data, "b".data, "p".data, []⟩]⟩

/-- The same dictionary after one round trip: serialization writes the
meanings block as `//`, which re-parses as one empty meaning. -/
def dictOneEmptyMeaning : Dict :=
  ⟨["#! entries=1".data], ⟨0, 0, [], [], 1, [], [], none⟩,
    [⟨"a".data, "b".data, "p".data, [[]]⟩]⟩

/-- Claim C2 counterexample: the well-formed text `#! entries=1\r\na b [p] /`
(declared count matches the single entry line) parses to an entry with zero
meanings; serializing writes `a b [p] //`, which re-parses as an entry with
one empty meaning, so `parse (serialize (parse text))` differs from
`parse text` in the entry sequence. -/
theorem roundtrip_fails_on_empty_meanings :
    Parse ("#! entries=1\r\na b [p] /".data) =
      some (Except.ok dictNoMeanings) ∧
    Parse (Serialize dictNoMeanings) = some (Except.ok dictOneEmptyMeaning) ∧
    dictOneEmptyMeaning.e ≠ dictNoMeanings.e := by
  decide

/-! ## Generic split / join lemmas for the round-trip proof -/

theorem splitC_ne_nil (c : Char) (t : Str) : splitC c t ≠ [] := by
  cases t with
  | nil => simp [splitC]
  | cons x xs =>
    unfold splitC
    by_cases hx : x = c
    · simp [hx]
    · rw [if_neg hx]
      cases splitC c xs <;> simp

theorem splitC_pieces_not_mem {c : Char} {t : Str} :
    ∀ p ∈ splitC c t, c ∉ p := by
  induction t with
  | nil =>
    intro p hp
    simp [splitC] at hp
    simp [hp]
  | cons x xs ih =>
    intro p hp
    unfold splitC at hp
    by_cases hx : x = c
    · rw [if_pos hx] at hp
      rcases List.mem_cons.mp hp with rfl | hp'
      · simp
      · exact ih p hp'
    · rw [if_neg hx] at hp
      cases hs : splitC c xs with
      | nil => exact absurd hs (splitC_ne_nil c xs)
      | cons h tl =>
        rw [hs] at hp
        rcases List.mem_cons.mp hp with rfl | hp'
        · intro hm
          rcases List.mem_cons.mp hm with rfl | hm'
          · exact hx rfl
          · exact ih h (hs ▸ List.mem_cons_self h tl) hm'
        · exact ih p (hs ▸ List.mem_cons_of_mem h hp')

theorem splitC_pieces_subset {c : Char} {t : Str} :
    ∀ p ∈ splitC c t, ∀ x ∈ p, x ∈ t := by
  induction t with
  | nil =>
    intro p hp
    simp [splitC] at hp
    simp [hp]
  | cons y ys ih =>
    intro p hp x hx
    unfold splitC at hp
    by_cases hy : y = c
    · rw [if_pos hy] at hp
      rcases List.mem_cons.mp hp with rfl | hp'
      · simp at hx
      · exact List.mem_cons_of_mem y (ih p hp' x hx)
    · rw [if_neg hy] at hp
      cases hs : splitC c ys with
      | nil => exact absurd hs (splitC_ne_nil c ys)
      | cons h tl =>
        rw [hs] at hp
        rcases List.mem_cons.mp hp with rfl | hp'
        · rcases List.mem_cons.mp hx with rfl | hx'
          · simp
          · exact List.mem_cons_of_mem y
              (ih h (hs ▸ List.mem_cons_self h tl) x hx')
        · exact List.mem_cons_of_mem y
            (ih p (hs ▸ List.mem_cons_of_mem h hp') x hx)

theorem splitC_append_sep {c : Char} {xs : Str} (ys : Str) (h : c ∉ xs) :
    splitC c (xs ++ c :: ys) = xs :: splitC c ys := by
  induction xs with
  | nil => simp [splitC]
  | cons x xs' ih =>
    have hx : ¬(x = c) := fun e => h (by simp [e])
    have hxs : c ∉ xs' := fun hc => h (by simp [hc])
    simp only [List.cons_append, splitC, if_neg hx, List.append_eq, ih hxs]

theorem splitP_append_sep {pr : Char → Bool} {xs : Str} (y : Char) (ys : Str)
    (h : ∀ x ∈ xs, pr x = false) (hy : pr y = true) :
    splitP pr (xs ++ y :: ys) = xs :: splitP pr ys := by
  induction xs with
  | nil => simp [splitP, hy]
  | cons x xs' ih =>
    have hx : ¬(pr x = true) := by simp [h x (by simp)]
    simp only [List.cons_append, splitP, if_neg hx, List.append_eq,
      ih (fun a ha => h a (by simp [ha]))]

theorem splitP_all_neg {pr : Char → Bool} {xs : Str}
    (h : ∀ x ∈ xs, pr x = false) : splitP pr xs = [xs] := by
  induction xs with
  | nil => rfl
  | cons x xs' ih =>
    have hx : ¬(pr x = true) := by simp [h x (by simp)]
    simp only [splitP, if_neg hx, ih (fun a ha => h a (by simp [ha]))]

theorem idxOfC_append_first {c : Char} {xs : Str} (ys : Str) (h : c ∉ xs) :
    idxOfC c (xs ++ c :: ys) = some xs.length := by
  induction xs with
  | nil => simp [idxOfC]
  | cons x xs' ih =>
    have hx : ¬(x = c) := fun e => h (by simp [e])
    simp only [List.cons_append, idxOfC, if_neg hx, List.append_eq,
      ih (fun hc => h (by simp [hc])), Option.map_some', List.length_cons]

theorem idxOfC_not_mem_take {c : Char} {w : Str} {i : Nat}
    (h : idxOfC c w = some i) : c ∉ w.take i := by
  induction w generalizing i with
  | nil => simp
  | cons x xs ih =>
    by_cases hx : x = c
    · simp [idxOfC, hx] at h
      subst h
      simp
    · simp [idxOfC, hx] at h
      obtain ⟨j, hj, rfl⟩ := h
      intro hm
      simp only [List.take_succ_cons, List.mem_cons] at hm
      rcases hm with rfl | hm'
      · exact hx rfl
      · exact ih hj hm'

theorem getLast_append_single {α : Type} {l : List α} {c : α} :
    (l ++ [c]).getLast? = some c := by
  induction l with
  | nil => rfl
  | cons x xs ih => rw [List.cons_append, List.getLast?_cons, ih]; rfl

theorem dropCR_append_cr (l : Str) : dropCR (l ++ ['\r']) = l := by
  unfold dropCR
  rw [getLast_append_single, if_pos rfl, List.dropLast_concat]

theorem dropCR_no_cr {l : Str} (h : l.getLast? ≠ some '\r') : dropCR l = l := by
  unfold dropCR
  rw [if_neg h]

theorem dropCR_subset {l : Str} : ∀ x ∈ dropCR l, x ∈ l := by
  intro x hx
  unfold dropCR at hx
  by_cases h : l.getLast? = some '\r'
  · rw [if_pos h] at hx
    exact List.dropLast_subset l hx
  · rwa [if_neg h] at hx

theorem linesOf_no_newline {t : Str} : ∀ l ∈ linesOf t, '\n' ∉ l := by
  intro l hl hm
  unfold linesOf at hl
  simp only [List.mem_map] at hl
  obtain ⟨p, hp, rfl⟩ := hl
  have hp' : p ∈ splitC '\n' t := by
    by_cases hc : (splitC '\n' t).getLast? = some []
    · rw [if_pos hc] at hp
      exact List.dropLast_subset _ hp
    · rwa [if_neg hc] at hp
  exact splitC_pieces_not_mem p hp' (dropCR_subset '\n' hm)

/-! ## The serialized byte stream as a joined line list -/

theorem writeHeaderLines_cons_of_ne {x : Str} {ys : List Str} (h : ys ≠ []) :
    writeHeaderLines (x :: ys) = x ++ CRLF ++ writeHeaderLines ys := by
  cases ys with
  | nil => exact absurd rfl h
  | cons y ys' => rfl

theorem entries_foldl (es : List Entry) (acc : Str) :
    es.foldl (fun acc e => acc ++ CRLF ++ Marshal e) acc =
      acc ++ (es.map (fun e => CRLF ++ Marshal e)).flatten := by
  induction es generalizing acc with
  | nil => simp
  | cons e es' ih =>
    rw [List.foldl_cons, ih]
    simp [List.append_assoc]

theorem writeHeaderLines_cons_flatten (x : Str) (ms : List Str) :
    writeHeaderLines (x :: ms) = x ++ (ms.map (fun m => CRLF ++ m)).flatten := by
  induction ms generalizing x with
  | nil => simp [writeHeaderLines]
  | cons m ms' ih =>
    rw [writeHeaderLines_cons_of_ne (by simp), ih m]
    simp [List.append_assoc]

theorem writeHeaderLines_append_all (hs ms : List Str) (h : hs ≠ []) :
    writeHeaderLines hs ++ (ms.map (fun m => CRLF ++ m)).flatten =
      writeHeaderLines (hs ++ ms) := by
  cases hs with
  | nil => exact absurd rfl h
  | cons x hs' =>
    rw [writeHeaderLines_cons_flatten, List.cons_append,
      writeHeaderLines_cons_flatten]
    simp [List.append_assoc]

theorem serialize_eq_join {d : Dict} (h : d.header ≠ []) :
    Serialize d = writeHeaderLines (d.header ++ d.e.map Marshal) := by
  unfold Serialize
  rw [entries_foldl, List.nil_append]
  have hmm : d.e.map (fun e => CRLF ++ Marshal e) =
      (d.e.map Marshal).map (fun m => CRLF ++ m) := by
    rw [List.map_map]
    rfl
  rw [hmm]
  exact writeHeaderLines_append_all d.header (d.e.map Marshal) h

/-! ## Splitting the joined line list back into lines -/

theorem splitC_writeHeaderLines (ls : List Str) (last : Str)
    (hnl : ∀ l ∈ ls, '\n' ∉ l) (hlast : '\n' ∉ last) :
    splitC '\n' (writeHeaderLines (ls ++ [last])) =
      ls.map (fun l => l ++ ['\r']) ++ [last] := by
  induction ls with
  | nil =>
    simp only [List.nil_append, writeHeaderLines, List.map_nil]
    rw [splitC_single hlast]
  | cons x ls' ih =>
    rw [List.cons_append, writeHeaderLines_cons_of_ne (by simp)]
    have hx : '\n' ∉ x ++ ['\r'] := by
      intro hm
      rcases List.mem_append.mp hm with h1 | h2
      · exact hnl x (by simp) h1
      · simp at h2
    have : x ++ CRLF ++ writeHeaderLines (ls' ++ [last]) =
        (x ++ ['\r']) ++ '\n' :: writeHeaderLines (ls' ++ [last]) := by
      simp [CRLF, List.append_assoc]
    rw [this, splitC_append_sep _ hx,
      ih (fun l hl => hnl l (by simp [hl]))]
    simp

theorem linesOf_writeHeaderLines (ls : List Str) (last : Str)
    (hnl : ∀ l ∈ ls, '\n' ∉ l) (hlast : '\n' ∉ last) (hne : last ≠ [])
    (hcr : last.getLast? ≠ some '\r') :
    linesOf (writeHeaderLines (ls ++ [last])) = ls ++ [last] := by
  simp only [linesOf]
  rw [splitC_writeHeaderLines ls last hnl hlast]
  have hlast2 : (ls.map (fun l => l ++ ['\r']) ++ [last]).getLast? = some last :=
    getLast_append_single
  have hcond : ¬((ls.map (fun l => l ++ ['\r']) ++ [last]).getLast? = some []) := by
    rw [hlast2]
    intro hc
    exact hne (Option.some_injective _ hc)
  rw [if_neg hcond, List.map_append, List.map_map]
  congr 1
  · calc List.map (dropCR ∘ fun l => l ++ ['\r']) ls
        = List.map id ls := by
          apply List.map_congr_left
          intro l _
          exact dropCR_append_cr l
      _ = ls := List.map_id ls
  · simp [dropCR_no_cr hcr]

/-! ## Decomposition and replay of the scan loop -/

/-- Metadata action of a comment line; it depends only on the line and the
current metadata, not on the rest of the parser state. -/
def mdStepF (md : Metadata) (line : Str) : Option (Except PErr Metadata) :=
  if startsWith ['#', '!'] line then procMeta line md else some (.ok md)

/-- Iterated metadata action over a list of comment lines. -/
def mdRun (md : Metadata) : List Str → Option (Except PErr Metadata)
  | [] => some (.ok md)
  | l :: ls =>
    match mdStepF md l with
    | none => none
    | some (.error e) => some (.error e)
    | some (.ok md') => mdRun md' ls

theorem procLine_comment {s : PState} {l : Str}
    (hc : startsWith ['#'] l = true) :
    procLine s l =
      match mdStepF s.md l with
      | none => none
      | some (.error e) => some (.error e)
      | some (.ok md') => some (.ok ⟨s.header ++ [l], md', s.es⟩) := by
  simp only [procLine, mdStepF, if_pos hc]
  by_cases hb : startsWith ['#', '!'] l = true
  · simp only [if_pos hb]
  · simp only [if_neg hb]

theorem procLine_entry {s : PState} {l : Str} {en : Entry}
    (hc : startsWith ['#'] l = false)
    (hu : Unmarshal l = some (.ok en)) :
    procLine s l = some (.ok ⟨s.header, s.md, s.es ++ [en]⟩) := by
  simp only [procLine, hc, Bool.false_eq_true, if_false, hu]

theorem procLines_append (s : PState) (xs ys : List Str) :
    procLines s (xs ++ ys) =
      match procLines s xs with
      | none => none
      | some (.error e) => some (.error e)
      | some (.ok st') => procLines st' ys := by
  induction xs generalizing s with
  | nil => simp [procLines]
  | cons l ls ih =>
    simp only [List.cons_append, procLines]
    cases procLine s l with
    | none => rfl
    | some r =>
      cases r with
      | error e => rfl
      | ok st' => exact ih st'

theorem procLines_decomp {lines : List Str} :
    ∀ {s st : PState}, procLines s lines = some (Except.ok st) →
    st.header = s.header ++ lines.filter (fun l => startsWith ['#'] l) ∧
    mdRun s.md (lines.filter (fun l => startsWith ['#'] l)) =
      some (Except.ok st.md) ∧
    ∃ es', st.es = s.es ++ es' ∧
      List.Forall₂ (fun l en => Unmarshal l = some (Except.ok en))
        (lines.filter (fun l => !(startsWith ['#'] l))) es' := by
  induction lines with
  | nil =>
    intro s st h
    simp only [procLines] at h
    cases h
    exact ⟨by simp, by simp [mdRun], [], by simp, by simp⟩
  | cons l ls ih =>
    intro s st h
    simp only [procLines] at h
    by_cases hc : startsWith ['#'] l = true
    · rw [procLine_comment hc] at h
      cases hm : mdStepF s.md l with
      | none => rw [hm] at h; cases h
      | some r =>
        cases r with
        | error e => rw [hm] at h; cases h
        | ok md' =>
          rw [hm] at h
          obtain ⟨h1, h2, es', h3, h4⟩ := ih h
          refine ⟨?_, ?_, es', ?_, ?_⟩
          · rw [h1]
            simp [List.filter_cons, hc, List.append_assoc]
          · simp only [List.filter_cons, hc, if_pos, mdRun, hm]
            exact h2
          · simpa using h3
          · simpa [List.filter_cons, hc] using h4
    · have hc' : startsWith ['#'] l = false := by
        cases hb : startsWith ['#'] l
        · rfl
        · exact absurd hb hc
      simp only [procLine, hc', Bool.false_eq_true, if_false] at h
      cases hu : Unmarshal l with
      | none => rw [hu] at h; cases h
      | some r =>
        cases r with
        | error e => rw [hu] at h; cases h
        | ok en =>
          rw [hu] at h
          obtain ⟨h1, h2, es', h3, h4⟩ := ih h
          refine ⟨?_, ?_, en :: es', ?_, ?_⟩
          · rw [h1]
            simp [List.filter_cons, hc']
          · simpa [List.filter_cons, hc'] using h2
          · rw [h3]
            simp
          · simp only [List.filter_cons, hc', Bool.not_false, if_pos]
            exact List.Forall₂.cons hu h4

theorem procLines_comments {H : List Str} :
    ∀ {s : PState} {mdF : Metadata},
    (∀ l ∈ H, startsWith ['#'] l = true) →
    mdRun s.md H = some (Except.ok mdF) →
    procLines s H = some (Except.ok ⟨s.header ++ H, mdF, s.es⟩) := by
  induction H with
  | nil =>
    intro s mdF _ hmd
    simp only [mdRun] at hmd
    cases hmd
    simp [procLines]
  | cons l ls ih =>
    intro s mdF hH hmd
    simp only [mdRun] at hmd
    cases hm : mdStepF s.md l with
    | none => rw [hm] at hmd; cases hmd
    | some r =>
      cases r with
      | error e => rw [hm] at hmd; cases hmd
      | ok md' =>
        rw [hm] at hmd
        simp only [procLines, procLine_comment (hH l (by simp)), hm]
        have := ih (s := ⟨s.header ++ [l], md', s.es⟩)
          (fun l' hl' => hH l' (by simp [hl'])) hmd
        simpa [List.append_assoc] using this

theorem procLines_entries {E : List Entry} :
    ∀ {s : PState},
    (∀ e ∈ E, startsWith ['#'] (Marshal e) = false ∧
      Unmarshal (Marshal e) = some (Except.ok e)) →
    procLines s (E.map Marshal) = some (Except.ok ⟨s.header, s.md, s.es ++ E⟩) := by
  induction E with
  | nil =>
    intro s _
    simp [procLines]
  | cons e es ih =>
    intro s hE
    have he := hE e (by simp)
    simp only [List.map_cons, procLines, procLine_entry he.1 he.2]
    have := ih (s := ⟨s.header, s.md, s.es ++ [e]⟩)
      (fun e' he' => hE e' (by simp [he']))
    simpa [List.append_assoc] using this

/-! ## Entry invariants established by `Unmarshal` and used by `Marshal` -/

/-- Shape facts that hold of every entry produced by a successful
`Unmarshal` of a newline-free line; exactly what is needed for
`Unmarshal (Marshal e)` to reproduce the entry. -/
structure EntryInv (e : Entry) : Prop where
  trad_ne : e.Traditional ≠ []
  trad_nosp : ∀ c ∈ e.Traditional, isSp c = false
  trad_nolb : '[' ∉ e.Traditional
  trad_norb : ']' ∉ e.Traditional
  trad_nosl : '/' ∉ e.Traditional
  sim_ne : e.Simplified ≠ []
  sim_nosp : ∀ c ∈ e.Simplified, isSp c = false
  sim_nolb : '[' ∉ e.Simplified
  sim_norb : ']' ∉ e.Simplified
  sim_nosl : '/' ∉ e.Simplified
  pin_norb : ']' ∉ e.Pinyin
  pin_nosl : '/' ∉ e.Pinyin
  pin_nonl : '\n' ∉ e.Pinyin
  mean_nosl : ∀ m ∈ e.Meanings, '/' ∉ m
  mean_nonl : ∀ m ∈ e.Meanings, '\n' ∉ m

theorem splitP_ne_nil (pr : Char → Bool) (t : Str) : splitP pr t ≠ [] := by
  cases t with
  | nil => simp [splitP]
  | cons x xs =>
    unfold splitP
    by_cases hx : pr x = true
    · simp [hx]
    · rw [if_neg hx]
      cases splitP pr xs <;> simp

theorem splitP_pieces {pr : Char → Bool} {t : Str} :
    ∀ p ∈ splitP pr t, ∀ c ∈ p, pr c = false ∧ c ∈ t := by
  induction t with
  | nil =>
    intro p hp
    simp [splitP] at hp
    simp [hp]
  | cons x xs ih =>
    intro p hp c hc
    unfold splitP at hp
    by_cases hx : pr x = true
    · rw [if_pos hx] at hp
      rcases List.mem_cons.mp hp with rfl | hp'
      · simp at hc
      · have := ih p hp' c hc
        exact ⟨this.1, by simp [this.2]⟩
    · rw [if_neg hx] at hp
      cases hs : splitP pr xs with
      | nil => exact absurd hs (splitP_ne_nil pr xs)
      | cons h tl =>
        rw [hs] at hp
        rcases List.mem_cons.mp hp with rfl | hp'
        · rcases List.mem_cons.mp hc with rfl | hc'
          · exact ⟨by simpa using hx, by simp⟩
          · have := ih h (hs ▸ List.mem_cons_self h tl) c hc'
            exact ⟨this.1, by simp [this.2]⟩
        · have := ih p (hs ▸ List.mem_cons_of_mem h hp') c hc
          exact ⟨this.1, by simp [this.2]⟩

theorem wsTokens_pieces {t : Str} :
    ∀ tok ∈ wsTokens t, tok ≠ [] ∧ ∀ c ∈ tok, isSp c = false ∧ c ∈ t := by
  intro tok htok
  unfold wsTokens at htok
  have hmem := List.mem_of_mem_filter htok
  have hne : tok ≠ [] := by
    have := List.of_mem_filter htok
    simpa using this
  exact ⟨hne, fun c hc => splitP_pieces tok hmem c hc⟩

theorem unmarshal_inv {l : Str} {e : Entry}
    (hu : Unmarshal l = some (Except.ok e)) (hnl : '\n' ∉ l) :
    EntryInv e ∧ 2 ≤ (splitC '/' l).length := by
  simp only [Unmarshal] at hu
  set f0 := (splitC '/' l).headD [] with hf0
  have hf0mem : f0 ∈ splitC '/' l := by
    rw [hf0]
    cases hs : splitC '/' l with
    | nil => exact absurd hs (splitC_ne_nil '/' l)
    | cons a tl => simp
  have hf0nosl : '/' ∉ f0 := splitC_pieces_not_mem f0 hf0mem
  have hf0sub : ∀ c ∈ f0, c ∈ l := splitC_pieces_subset f0 hf0mem
  cases h1 : idxOfC '[' f0 with
  | none => rw [h1] at hu; cases hu
  | some off =>
    cases h2 : idxOfC ']' f0 with
    | none => rw [h1, h2] at hu; cases hu
    | some close =>
      rw [h1, h2] at hu
      by_cases h3 : off + 1 ≤ close
      · simp only [if_pos h3] at hu
        cases htok : wsTokens (f0.take off) with
        | nil => rw [htok] at hu; cases hu
        | cons trad tl =>
          cases tl with
          | nil => rw [htok] at hu; cases hu
          | cons sim rest =>
            rw [htok] at hu
            by_cases h4 : 2 ≤ (splitC '/' l).length
            · simp only [if_pos h4] at hu
              injection hu with hu'
              injection hu' with hu''
              subst hu''
              refine ⟨?_, h4⟩
              have htr : trad ∈ wsTokens (f0.take off) := by rw [htok]; simp
              have hsm : sim ∈ wsTokens (f0.take off) := by rw [htok]; simp
              obtain ⟨htr_ne, htr_p⟩ := wsTokens_pieces trad htr
              obtain ⟨hsm_ne, hsm_p⟩ := wsTokens_pieces sim hsm
              have htake_sub : ∀ c ∈ f0.take off, c ∈ f0 :=
                fun c hc => List.take_subset off f0 hc
              have hnolb : '[' ∉ f0.take off := idxOfC_not_mem_take h1
              have hnorb : ']' ∉ f0.take off := by
                intro hm
                apply idxOfC_not_mem_take h2
                have : f0.take off = (f0.take close).take off := by
                  rw [List.take_take, Nat.min_eq_left (by omega)]
                rw [this] at hm
                exact List.take_subset off (f0.take close) hm
              have hpin_sub : ∀ c ∈ (f0.take close).drop (off + 1), c ∈ f0 :=
                fun c hc => List.take_subset close f0 (List.drop_subset (off + 1) _ hc)
              have hmeans : ∀ m ∈ ((splitC '/' l).drop 1).dropLast, m ∈ splitC '/' l :=
                fun m hm => List.drop_subset 1 _ (List.dropLast_subset _ hm)
              exact {
                trad_ne := htr_ne
                trad_nosp := fun c hc => (htr_p c hc).1
                trad_nolb := fun hm => hnolb ((htr_p '[' hm).2)
                trad_norb := fun hm => hnorb ((htr_p ']' hm).2)
                trad_nosl := fun hm => hf0nosl (htake_sub '/' ((htr_p '/' hm).2))
                sim_ne := hsm_ne
                sim_nosp := fun c hc => (hsm_p c hc).1
                sim_nolb := fun hm => hnolb ((hsm_p '[' hm).2)
                sim_norb := fun hm => hnorb ((hsm_p ']' hm).2)
                sim_nosl := fun hm => hf0nosl (htake_sub '/' ((hsm_p '/' hm).2))
                pin_norb := fun hm => idxOfC_not_mem_take h2 (by
                  exact List.drop_subset (off + 1) (f0.take close) hm)
                pin_nosl := fun hm => hf0nosl (hpin_sub '/' hm)
                pin_nonl := fun hm => hnl (hf0sub '\n' (hpin_sub '\n' hm))
                mean_nosl := fun m hm =>
                  splitC_pieces_not_mem m (hmeans m hm)
                mean_nonl := fun m hm hc =>
                  hnl (splitC_pieces_subset m (hmeans m hm) '\n' hc)
              }
            · simp only [if_neg h4] at hu; cases hu
      · simp only [if_neg h3] at hu; cases hu

theorem splitC_joinSep {c : Char} {ms : List Str} (hne : ms ≠ [])
    (h : ∀ m ∈ ms, c ∉ m) :
    splitC c (joinSep c ms ++ [c]) = ms ++ [[]] := by
  induction ms with
  | nil => exact absurd rfl hne
  | cons m ms' ih =>
    cases ms' with
    | nil =>
      have hm : c ∉ m := h m (by simp)
      simp only [joinSep, List.singleton_append]
      rw [show m ++ [c] = m ++ c :: [] from rfl, splitC_append_sep [] hm]
      rfl
    | cons m2 ms'' =>
      have hm : c ∉ m := h m (by simp)
      simp only [joinSep]
      rw [List.append_assoc, List.cons_append, splitC_append_sep _ hm,
        ih (by simp) (fun m' hm' => h m' (by simp [hm']))]
      rfl

/-- Field-0 prefix of `Marshal e`: everything before the slash block. -/
def marshalPre (e : Entry) : Str :=
  e.Traditional ++ ' ' :: e.Simplified ++ ' ' :: '[' :: e.Pinyin ++ [']', ' ']

theorem marshal_decomp (e : Entry) :
    Marshal e = marshalPre e ++ '/' :: (joinSep '/' e.Meanings ++ ['/']) := by
  simp [Marshal, marshalPre, List.append_assoc]

theorem marshalPre_no_slash {e : Entry} (inv : EntryInv e) :
    '/' ∉ marshalPre e := by
  intro hmem
  simp [marshalPre, List.mem_append, List.mem_cons, inv.trad_nosl,
    inv.sim_nosl, inv.pin_nosl] at hmem

theorem marshal_fields {e : Entry} (inv : EntryInv e) (hm : e.Meanings ≠ []) :
    splitC '/' (Marshal e) = marshalPre e :: (e.Meanings ++ [[]]) := by
  rw [marshal_decomp, splitC_append_sep _ (marshalPre_no_slash inv),
    splitC_joinSep hm inv.mean_nosl]

theorem unmarshal_marshal {e : Entry} (inv : EntryInv e)
    (hm : e.Meanings ≠ []) :
    Unmarshal (Marshal e) = some (Except.ok e) := by
  have hfields := marshal_fields inv hm
  have hf0 : (splitC '/' (Marshal e)).headD [] = marshalPre e := by
    rw [hfields]; rfl
  set A : Str := e.Traditional ++ ' ' :: (e.Simplified ++ [' ']) with hA
  have hpreA : marshalPre e = A ++ '[' :: (e.Pinyin ++ [']', ' ']) := by
    simp [marshalPre, hA, List.append_assoc]
  have hAnolb : '[' ∉ A := by
    intro hmem
    rw [hA] at hmem
    simp [List.mem_append, List.mem_cons, inv.trad_nolb, inv.sim_nolb] at hmem
  have hoff : idxOfC '[' (marshalPre e) = some A.length := by
    rw [hpreA]
    exact idxOfC_append_first _ hAnolb
  set B : Str := A ++ '[' :: e.Pinyin with hB
  have hpreB : marshalPre e = B ++ ']' :: [' '] := by
    rw [hpreA, hB]
    simp [List.append_assoc]
  have hBnorb : ']' ∉ B := by
    intro hmem
    rw [hB, hA] at hmem
    simp [List.mem_append, List.mem_cons, inv.trad_norb, inv.sim_norb,
      inv.pin_norb] at hmem
  have hclose : idxOfC ']' (marshalPre e) = some B.length := by
    rw [hpreB]
    exact idxOfC_append_first _ hBnorb
  have hBlen : B.length = A.length + 1 + e.Pinyin.length := by
    rw [hB]
    simp
    omega
  have hle : A.length + 1 ≤ B.length := by omega
  have htake : (marshalPre e).take A.length = A := by
    rw [hpreA]
    exact List.take_left A _
  have htokens : wsTokens A = [e.Traditional, e.Simplified] := by
    unfold wsTokens
    rw [hA, splitP_append_sep ' ' _ inv.trad_nosp (by decide),
      show e.Simplified ++ [' '] = e.Simplified ++ ' ' :: [] from rfl,
      splitP_append_sep ' ' _ inv.sim_nosp (by decide)]
    simp only [splitP]
    simp [List.filter_cons, inv.trad_ne, inv.sim_ne]
  have hpin : ((marshalPre e).take B.length).drop (A.length + 1) = e.Pinyin := by
    have ht : (marshalPre e).take B.length = B := by
      rw [hpreB]
      exact List.take_left B _
    rw [ht, hB, show A ++ '[' :: e.Pinyin = (A ++ ['[']) ++ e.Pinyin by
      simp [List.append_assoc]]
    have hlen1 : (A ++ ['[']).length = A.length + 1 := by simp
    rw [← hlen1]
    exact List.drop_left _ _
  have hflen : 2 ≤ (splitC '/' (Marshal e)).length := by
    rw [hfields]
    simp
  simp only [Unmarshal, hf0]
  rw [hoff, hclose]
  simp only [if_pos hle, htake, htokens, if_pos hflen, hpin, hfields]
  simp [List.dropLast_concat]

theorem joinSep_mem {c : Char} {x : Char} {ms : List Str}
    (h : x ∈ joinSep c ms) : x = c ∨ ∃ m ∈ ms, x ∈ m := by
  induction ms with
  | nil => simp [joinSep] at h
  | cons m ms' ih =>
    cases ms' with
    | nil =>
      simp only [joinSep] at h
      exact Or.inr ⟨m, by simp, h⟩
    | cons m2 ms'' =>
      simp only [joinSep, List.mem_append, List.mem_cons] at h
      rcases h with h1 | h2 | h3
      · exact Or.inr ⟨m, by simp, h1⟩
      · exact Or.inl h2
      · rcases ih h3 with h4 | ⟨m', hm', hx⟩
        · exact Or.inl h4
        · exact Or.inr ⟨m', by simp [hm'], hx⟩

theorem marshalPre_no_newline {e : Entry} (inv : EntryInv e) :
    '\n' ∉ marshalPre e := by
  intro hmem
  have hnt : '\n' ∉ e.Traditional :=
    fun h => absurd (inv.trad_nosp '\n' h) (by decide)
  have hns : '\n' ∉ e.Simplified :=
    fun h => absurd (inv.sim_nosp '\n' h) (by decide)
  simp [marshalPre, List.mem_append, List.mem_cons, hnt, hns,
    inv.pin_nonl] at hmem

theorem marshal_no_newline {e : Entry} (inv : EntryInv e) :
    '\n' ∉ Marshal e := by
  intro hmem
  rw [marshal_decomp] at hmem
  rcases List.mem_append.mp hmem with h1 | h2
  · exact marshalPre_no_newline inv h1
  · rcases List.mem_cons.mp h2 with h3 | h4
    · cases h3
    · rcases List.mem_append.mp h4 with h5 | h6
      · rcases joinSep_mem h5 with h7 | ⟨m, hm, hx⟩
        · cases h7
        · exact inv.mean_nonl m hm hx
      · simp at h6

theorem marshal_ne_nil (e : Entry) : Marshal e ≠ [] := by
  rw [marshal_decomp]
  intro h
  have := congrArg List.length h
  simp at this

theorem marshal_getLast_slash (e : Entry) :
    (Marshal e).getLast? = some '/' := by
  have hdec : Marshal e =
      (marshalPre e ++ '/' :: joinSep '/' e.Meanings) ++ ['/'] := by
    rw [marshal_decomp]
    simp [List.append_assoc]
  rw [hdec]
  exact getLast_append_single

theorem marshal_not_comment {e : Entry} (hne : e.Traditional ≠ [])
    (hh : ∀ c, e.Traditional.head? = some c → c ≠ '#') :
    startsWith ['#'] (Marshal e) = false := by
  cases htr : e.Traditional with
  | nil => exact absurd htr hne
  | cons t0 tr =>
    have ht0 : t0 ≠ '#' := hh t0 (by rw [htr]; rfl)
    have hM : Marshal e = t0 :: (tr ++ ' ' :: e.Simplified ++ ' ' :: '[' ::
        e.Pinyin ++ ']' :: ' ' :: '/' :: (joinSep '/' e.Meanings ++ ['/'])) := by
      simp [Marshal, htr]
    rw [hM]
    simp only [startsWith]
    have : ¬('#' = t0) := fun h => ht0 h.symm
    simp [this]

theorem startsWith_ne_nil {p : Char} {ps l : Str}
    (h : startsWith (p :: ps) l = true) : l ≠ [] := by
  cases l with
  | nil => simp [startsWith] at h
  | cons x xs => simp

theorem forall2_mem_right {R : Str → Entry → Prop} {ls : List Str}
    {es : List Entry} (h : List.Forall₂ R ls es) :
    ∀ e ∈ es, ∃ l ∈ ls, R l e := by
  induction h with
  | nil => simp
  | cons hr _ ih =>
    intro e he
    rcases List.mem_cons.mp he with rfl | he'
    · exact ⟨_, by simp, hr⟩
    · obtain ⟨l, hl, hrl⟩ := ih e he'
      exact ⟨l, by simp [hl], hrl⟩

theorem linesOf_writeHeaderLines_all (L : List Str) (hL : L ≠ [])
    (hnl : ∀ l ∈ L, '\n' ∉ l) (hne : ∀ lw, L.getLast? = some lw → lw ≠ [])
    (hcr : ∀ lw, L.getLast? = some lw → lw.getLast? ≠ some '\r') :
    linesOf (writeHeaderLines L) = L := by
  have hdec := (List.dropLast_append_getLast hL).symm
  obtain ⟨lw, hlw⟩ : ∃ lw, L.getLast? = some lw := by
    cases hg : L.getLast? with
    | none => exact absurd (List.getLast?_eq_none_iff.mp hg) hL
    | some lw => exact ⟨lw, rfl⟩
  have hlast_eq : L.getLast hL = lw := by
    have := List.getLast?_eq_getLast L hL
    rw [hlw] at this
    exact (Option.some_injective _ this).symm
  rw [hdec, hlast_eq]
  refine linesOf_writeHeaderLines L.dropLast lw ?_ ?_ (hne lw hlw) (hcr lw hlw)
  · intro l hl
    exact hnl l (List.dropLast_subset L hl)
  · have : lw ∈ L := by
      rw [← hlast_eq]
      exact List.getLast_mem hL
    exact hnl lw this

/-- Claim C2 (amended): for every text that parses successfully, if
additionally every entry has at least one meaning, no entry's traditional
field begins with `#`, and (when there are no entries) the last header line
does not end in a carriage return, then re-parsing the serialized output
reproduces the dictionary exactly — same metadata, same entry sequence
(and same header). The extra conditions are forced: an entry with zero
meanings re-parses with one empty meaning, a traditional field starting
with `#` turns its line into a comment on re-parse, and a final header
line ending in `\r` loses that character to the line scanner. -/
theorem serialize_parse_roundtrip (t : Str) (d : Dict)
    (hp : Parse t = some (Except.ok d))
    (hm : ∀ e ∈ d.e, e.Meanings ≠ [])
    (hh : ∀ e ∈ d.e, ∀ c, e.Traditional.head? = some c → c ≠ '#')
    (hcr : d.e = [] → ∀ lw, d.header.getLast? = some lw →
      lw.getLast? ≠ some '\r') :
    Parse (Serialize d) = some (Except.ok d) := by
  obtain ⟨st, hrun, hcount, hd⟩ : ∃ st,
      procLines initState (linesOf t) = some (.ok st) ∧
      (st.es.length : Int) = st.md.Entries ∧
      d = ⟨st.header, st.md, st.es⟩ := by
    unfold Parse at hp
    cases hr : procLines initState (linesOf t) with
    | none => rw [hr] at hp; cases hp
    | some r =>
      cases r with
      | error e => rw [hr] at hp; cases hp
      | ok st =>
        rw [hr] at hp
        by_cases hc : (st.es.length : Int) = st.md.Entries
        · simp only [if_pos hc] at hp
          injection hp with hp'
          injection hp' with hp''
          exact ⟨st, rfl, hc, hp''.symm⟩
        · simp only [if_neg hc] at hp
          cases hp
  obtain ⟨hheader, hmd, es', hes, hfa⟩ := procLines_decomp hrun
  obtain ⟨sH, sMD, sES⟩ := st
  simp only [initState, List.nil_append] at hheader hmd hes hcount hd
  subst hd
  simp only [] at hm hh hcr ⊢
  have hH1 : ∀ l ∈ sH, startsWith ['#'] l = true := by
    rw [hheader]
    intro l hl
    exact List.of_mem_filter hl
  have hH2 : ∀ l ∈ sH, '\n' ∉ l := by
    rw [hheader]
    intro l hl
    exact linesOf_no_newline l (List.mem_of_mem_filter hl)
  have hH3 : ∀ l ∈ sH, l ≠ [] :=
    fun l hl => startsWith_ne_nil (hH1 l hl)
  have hmdH : mdRun initMetadata sH = some (Except.ok sMD) := by
    rw [hheader]
    exact hmd
  have hEinv : ∀ e ∈ sES, EntryInv e := by
    intro e he
    rw [hes] at he
    obtain ⟨l, hl, hrl⟩ := forall2_mem_right hfa e he
    exact (unmarshal_inv hrl
      (linesOf_no_newline l (List.mem_of_mem_filter hl))).1
  cases sES with
  | nil =>
    cases sH with
    | nil =>
      have hmd0 : sMD = initMetadata := by
        simp only [mdRun] at hmdH
        injection hmdH with h1
        injection h1 with h2
        exact h2.symm
      subst hmd0
      decide
    | cons h0 hs =>
      have hne : (h0 :: hs : List Str) ≠ [] := by simp
      have hser : Serialize ⟨h0 :: hs, sMD, []⟩ =
          writeHeaderLines (h0 :: hs) := by
        have := serialize_eq_join (d := ⟨h0 :: hs, sMD, []⟩) hne
        simpa using this
      rw [hser]
      have hlines : linesOf (writeHeaderLines (h0 :: hs)) = h0 :: hs := by
        refine linesOf_writeHeaderLines_all (h0 :: hs) hne hH2 ?_ ?_
        · intro lw hlw
          exact hH3 lw (List.mem_of_getLast?_eq_some hlw)
        · intro lw hlw
          exact hcr rfl lw hlw
      unfold Parse
      rw [hlines, procLines_comments (s := initState) hH1 hmdH]
      simp only [initState, List.nil_append, if_pos hcount]
  | cons e0 es0 =>
    have hesne : (e0 :: es0 : List Entry) ≠ [] := by simp
    have hne : sH ≠ [] := by
      intro hhd
      subst hhd
      simp only [mdRun] at hmdH
      have hmd0 : sMD = initMetadata := by
        injection hmdH with h1
        injection h1 with h2
        exact h2.symm
      rw [hmd0] at hcount
      have hz : ((es0.length + 1 : Nat) : Int) = 0 := by
        simpa [initMetadata] using hcount
      omega
    have hser : Serialize ⟨sH, sMD, e0 :: es0⟩ =
        writeHeaderLines (sH ++ (e0 :: es0).map Marshal) :=
      serialize_eq_join hne
    rw [hser]
    have hmapne : (e0 :: es0).map Marshal ≠ [] := by simp
    have hlines : linesOf (writeHeaderLines (sH ++ (e0 :: es0).map Marshal)) =
        sH ++ (e0 :: es0).map Marshal := by
      refine linesOf_writeHeaderLines_all _ (by simp) ?_ ?_ ?_
      · intro l hl
        rcases List.mem_append.mp hl with h1 | h2
        · exact hH2 l h1
        · obtain ⟨e, he, rfl⟩ := List.mem_map.mp h2
          exact marshal_no_newline (hEinv e he)
      · intro lw hlw
        rw [List.getLast?_append_of_ne_nil _ hmapne] at hlw
        obtain ⟨e, he, heq⟩ := List.mem_map.mp (List.mem_of_getLast?_eq_some hlw)
        rw [← heq]
        exact marshal_ne_nil e
      · intro lw hlw
        rw [List.getLast?_append_of_ne_nil _ hmapne] at hlw
        obtain ⟨e, he, heq⟩ := List.mem_map.mp (List.mem_of_getLast?_eq_some hlw)
        rw [← heq, marshal_getLast_slash]
        simp
    unfold Parse
    rw [hlines, procLines_append,
      procLines_comments (s := initState) hH1 hmdH]
    have hent := procLines_entries (s := ⟨[] ++ sH, sMD, []⟩)
      (E := e0 :: es0) (fun e he =>
        ⟨marshal_not_comment (hEinv e he).trad_ne (hh e he),
          unmarshal_marshal (hEinv e he) (hm e he)⟩)
    simp only [initState] at hent ⊢
    rw [hent]
    simp only [List.nil_append, if_pos hcount]

/-- Dictionary parsed from `#! entries=1\r\na b [p] /m/`, for the round-trip
witness. -/
def dRt : Dict :=
  ⟨["#! entries=1".data], ⟨0, 0, [], [], 1, [], [], none⟩,
    [⟨"a".data, "b".data, "p".data, ["m".data]⟩]⟩

/-- Witness for the amended C2 theorem at a concrete well-formed text. -/
theorem serialize_parse_roundtrip_witness :
    Parse (Serialize dRt) = some (Except.ok dRt) := by
  refine serialize_parse_roundtrip ("#! entries=1\r\na b [p] /m/".data) dRt
    (by decide) (by decide) ?_ (fun h => absurd h (by decide))
  intro e he c hc
  have he' : e = ⟨"a".data, "b".data, "p".data, ["m".data]⟩ := by
    simpa [dRt] using he
  subst he'
  rw [show ("a".data : Str) = ['a'] from rfl] at hc
  simp only [List.head?] at hc
  injection hc with hc'
  subst hc'
  decide

/-! ## `levenshtein` (source lines 698-729) and its helper `min` (731-741) -/

/-- Source three-way `min`, translated branch for branch. -/
def min3 (x y z : Nat) : Nat :=
  if x < y then (if x < z then x else z)
  else (if y < z then y else z)

theorem min3_eq (x y z : Nat) : min3 x y z = Nat.min x (Nat.min y z) := by
  unfold min3
  simp only [Nat.min_def]
  split <;> split <;> (try split) <;> (try split) <;> omega

/-- UTF-8 byte length of a string; the source compares `len(src)` of the Go
strings (bytes) to decide which rune slice drives the inner loop. -/
def utf8Len (s : Str) : Nat := (s.map Char.utf8Size).sum

/-- Inner `j` loop of the source DP: given the remaining `s1` characters, the
corresponding tail of the previous row and the value just written (`prev`),
produce the new row entries. The mutation `ld[j-1] = prev; prev = curr` is
the usual delayed write of the single-row algorithm. -/
def rowStep (c : Char) : Str → List Nat → Nat → List Nat
  | [], _, _ => []
  | x :: xs, r0 :: rs, p =>
    let r1 := rs.headD 0
    let cur := if x = c then r0 else min3 (r0 + 1) (p + 1) (r1 + 1)
    cur :: rowStep c xs rs cur
  | _ :: _, [], _ => []

/-- Outer `i` loop of the source DP over the characters of `s2`. -/
def levLoop (s1 : Str) (row : List Nat) : Str → List Nat
  | [] => row
  | c :: cs =>
    levLoop s1 ((row.headD 0 + 1) :: rowStep c s1 row (row.headD 0 + 1)) cs

/-- Source `levenshtein`: early exit on equality, swap so the shorter (in
bytes) string indexes the row, run the DP, read `ld[l1]`. -/
def levenshtein (src dst : Str) : Nat :=
  if src = dst then 0
  else
    let sw := utf8Len dst < utf8Len src
    let s1 := if sw then dst else src
    let s2 := if sw then src else dst
    (levLoop s1 (List.range (s1.length + 1)) s2).getD s1.length 0

/-- Specification-side classic edit distance (head recursion). -/
def lev : Str → Str → Nat
  | [], ys => ys.length
  | x :: xs, [] => (x :: xs).length
  | x :: xs, y :: ys =>
    if x = y then lev xs ys
    else min3 (lev xs (y :: ys)) (lev (x :: xs) ys) (lev xs ys) + 1
termination_by s1 s2 => s1.length + s2.length
decreasing_by all_goals simp <;> omega

theorem lev_nil_left (ys : Str) : lev [] ys = ys.length := by
  conv_lhs => rw [lev.eq_def]

theorem lev_nil_right (xs : Str) : lev xs [] = xs.length := by
  cases xs with
  | nil => conv_lhs => rw [lev.eq_def]
  | cons x xs' => conv_lhs => rw [lev.eq_def]

theorem lev_cons_cons (x y : Char) (xs ys : Str) :
    lev (x :: xs) (y :: ys) =
      if x = y then lev xs ys
      else min3 (lev xs (y :: ys)) (lev (x :: xs) ys) (lev xs ys) + 1 := by
  conv_lhs => rw [lev.eq_def]

theorem lev_self (xs : Str) : lev xs xs = 0 := by
  induction xs with
  | nil => simp [lev_nil_left]
  | cons x xs ih => rw [lev_cons_cons, if_pos rfl, ih]

theorem lev_symm_aux : ∀ n (xs ys : Str), xs.length + ys.length ≤ n →
    lev xs ys = lev ys xs := by
  intro n
  induction n with
  | zero =>
    intro xs ys h
    have : xs = [] ∧ ys = [] := by
      constructor <;> (apply List.length_eq_zero.mp; omega)
    rw [this.1, this.2]
  | succ n ih =>
    intro xs ys h
    cases xs with
    | nil => rw [lev_nil_left, lev_nil_right]
    | cons x xs' =>
      cases ys with
      | nil => rw [lev_nil_left, lev_nil_right]
      | cons y ys' =>
        rw [lev_cons_cons, lev_cons_cons]
        simp only [List.length_cons] at h
        by_cases hxy : x = y
        · rw [if_pos hxy, if_pos hxy.symm, ih xs' ys' (by omega)]
        · rw [if_neg hxy, if_neg (fun hyx => hxy hyx.symm)]
          rw [ih xs' (y :: ys') (by simp; omega),
            ih (x :: xs') ys' (by simp; omega), ih xs' ys' (by omega)]
          rw [min3_eq, min3_eq]
          exact congrArg (· + 1) (Nat.min_left_comm _ _ _)

theorem lev_symm (xs ys : Str) : lev xs ys = lev ys xs :=
  lev_symm_aux (xs.length + ys.length) xs ys le_rfl

theorem lev_eq_zero_iff : ∀ n (xs ys : Str), xs.length + ys.length ≤ n →
    (lev xs ys = 0 ↔ xs = ys) := by
  intro n
  induction n with
  | zero =>
    intro xs ys h
    have : xs = [] ∧ ys = [] := by
      constructor <;> (apply List.length_eq_zero.mp; omega)
    rw [this.1, this.2]
    simp [lev]
  | succ n ih =>
    intro xs ys h
    cases xs with
    | nil =>
      rw [lev_nil_left]
      simp [List.length_eq_zero, eq_comm]
    | cons x xs' =>
      cases ys with
      | nil =>
        rw [lev_nil_right]
        simp
      | cons y ys' =>
        rw [lev_cons_cons]
        simp only [List.length_cons] at h
        by_cases hxy : x = y
        · rw [if_pos hxy]
          rw [ih xs' ys' (by omega)]
          simp [hxy]
        · rw [if_neg hxy]
          constructor
          · intro hz
            omega
          · intro he
            injection he with h1 h2
            exact absurd h1 hxy

theorem min3_le_left (a b c : Nat) : min3 a b c ≤ a := by
  rw [min3_eq]
  exact Nat.min_le_left _ _

theorem min3_le_mid (a b c : Nat) : min3 a b c ≤ b :=
  le_trans (by rw [min3_eq]; exact Nat.min_le_right _ _) (Nat.min_le_left b c)

theorem min3_le_right (a b c : Nat) : min3 a b c ≤ c :=
  le_trans (by rw [min3_eq]; exact Nat.min_le_right _ _) (Nat.min_le_right b c)

theorem min3_cases (a b c : Nat) :
    min3 a b c = a ∨ min3 a b c = b ∨ min3 a b c = c := by
  unfold min3
  split <;> split <;> simp

theorem lev_cons_bounds : ∀ n (x : Char) (xs ys : Str),
    xs.length + ys.length ≤ n →
    lev (x :: xs) ys ≤ lev xs ys + 1 ∧ lev xs ys ≤ lev (x :: xs) ys + 1 := by
  intro n
  induction n with
  | zero =>
    intro x xs ys h
    have hx : xs = [] := List.length_eq_zero.mp (by omega)
    have hy : ys = [] := List.length_eq_zero.mp (by omega)
    subst hx
    subst hy
    rw [lev_nil_right, lev_nil_right]
    simp
  | succ n ih =>
    intro x xs ys h
    cases ys with
    | nil =>
      rw [lev_nil_right, lev_nil_right]
      constructor <;> simp only [List.length_cons] <;> omega
    | cons y ys' =>
      simp only [List.length_cons] at h
      have htrans1 : lev xs (y :: ys') ≤ lev xs ys' + 1 := by
        have hb := (ih y ys' xs (by omega)).1
        rwa [lev_symm (y :: ys') xs, lev_symm ys' xs] at hb
      have htrans2 : lev xs ys' ≤ lev xs (y :: ys') + 1 := by
        have hb := (ih y ys' xs (by omega)).2
        rwa [lev_symm (y :: ys') xs, lev_symm ys' xs] at hb
      constructor
      · rw [lev_cons_cons]
        by_cases hxy : x = y
        · rw [if_pos hxy]
          subst hxy
          exact htrans2
        · rw [if_neg hxy]
          have := min3_le_left (lev xs (y :: ys')) (lev (x :: xs) ys') (lev xs ys')
          omega
      · rw [lev_cons_cons]
        by_cases hxy : x = y
        · rw [if_pos hxy]
          subst hxy
          exact htrans1
        · rw [if_neg hxy]
          have h2s := (ih x xs ys' (by omega)).2
          rcases min3_cases (lev xs (y :: ys')) (lev (x :: xs) ys')
            (lev xs ys') with he | he | he <;> rw [he] <;> omega

theorem lev_ins_le (xs ys : Str) (y : Char) :
    lev xs (y :: ys) ≤ lev xs ys + 1 := by
  have hb := (lev_cons_bounds (ys.length + xs.length) y ys xs le_rfl).1
  rwa [lev_symm (y :: ys) xs, lev_symm ys xs] at hb

theorem lev_del_le (xs ys : Str) (x : Char) :
    lev (x :: xs) ys ≤ lev xs ys + 1 :=
  (lev_cons_bounds (xs.length + ys.length) x xs ys le_rfl).1

/-- Edit scripts: `Ed xs ys n` holds when `n` copy-free edit operations
(substitute, insert, delete) transform `xs` into `ys`. Used to prove the
triangle inequality of `lev`. -/
inductive Ed : Str → Str → Nat → Prop where
  | nil : Ed [] [] 0
  | copy (c : Char) {xs ys : Str} {n : Nat} : Ed xs ys n → Ed (c :: xs) (c :: ys) n
  | subst (a b : Char) {xs ys : Str} {n : Nat} :
      Ed xs ys n → Ed (a :: xs) (b :: ys) (n + 1)
  | ins (b : Char) {xs ys : Str} {n : Nat} : Ed xs ys n → Ed xs (b :: ys) (n + 1)
  | del (a : Char) {xs ys : Str} {n : Nat} : Ed xs ys n → Ed (a :: xs) ys (n + 1)

theorem ed_nil_any : ∀ ys : Str, Ed [] ys ys.length := by
  intro ys
  induction ys with
  | nil => exact Ed.nil
  | cons y ys' ih => exact Ed.ins y ih

theorem ed_any_nil : ∀ xs : Str, Ed xs [] xs.length := by
  intro xs
  induction xs with
  | nil => exact Ed.nil
  | cons x xs' ih => exact Ed.del x ih

theorem ed_exists : ∀ n (xs ys : Str), xs.length + ys.length ≤ n →
    Ed xs ys (lev xs ys) := by
  intro n
  induction n with
  | zero =>
    intro xs ys h
    have hx : xs = [] := List.length_eq_zero.mp (by omega)
    have hy : ys = [] := List.length_eq_zero.mp (by omega)
    subst hx
    subst hy
    have h0 : lev [] ([] : Str) = 0 := by rw [lev_nil_left]; rfl
    rw [h0]
    exact Ed.nil
  | succ n ih =>
    intro xs ys h
    cases xs with
    | nil =>
      rw [lev_nil_left]
      exact ed_nil_any ys
    | cons x xs' =>
      cases ys with
      | nil =>
        rw [lev_nil_right]
        exact ed_any_nil (x :: xs')
      | cons y ys' =>
        simp only [List.length_cons] at h
        rw [lev_cons_cons]
        by_cases hxy : x = y
        · rw [if_pos hxy]
          subst hxy
          exact Ed.copy x (ih xs' ys' (by omega))
        · rw [if_neg hxy]
          rcases min3_cases (lev xs' (y :: ys')) (lev (x :: xs') ys')
            (lev xs' ys') with he | he | he
          · rw [he]
            exact Ed.del x (ih xs' (y :: ys') (by simp; omega))
          · rw [he]
            exact Ed.ins y (ih (x :: xs') ys' (by simp; omega))
          · rw [he]
            exact Ed.subst x y (ih xs' ys' (by omega))

theorem ed_ge {xs ys : Str} {n : Nat} (h : Ed xs ys n) : lev xs ys ≤ n := by
  induction h with
  | nil => rw [lev_nil_left]; rfl
  | copy c hed ih =>
    rw [lev_cons_cons, if_pos rfl]
    exact ih
  | @subst a b xs1 ys1 n1 hed ih =>
    rw [lev_cons_cons]
    by_cases hab : a = b
    · rw [if_pos hab]
      omega
    · rw [if_neg hab]
      have := min3_le_right (lev xs1 (b :: ys1)) (lev (a :: xs1) ys1)
        (lev xs1 ys1)
      omega
  | @ins b xs1 ys1 n1 hed ih =>
    have := lev_ins_le xs1 ys1 b
    omega
  | @del a xs1 ys1 n1 hed ih =>
    have := lev_del_le xs1 ys1 a
    omega

theorem ed_trans : ∀ N : Nat, ∀ {xs ys zs : Str} {m n : Nat},
    xs.length + ys.length + zs.length + m + n ≤ N →
    Ed xs ys m → Ed ys zs n → ∃ k, k ≤ m + n ∧ Ed xs zs k := by
  intro N
  induction N with
  | zero =>
    intro xs ys zs m n hN h1 h2
    have hx : xs = [] := List.length_eq_zero.mp (by omega)
    have hz : zs = [] := List.length_eq_zero.mp (by omega)
    subst hx
    subst hz
    exact ⟨0, by omega, Ed.nil⟩
  | succ N ih =>
    intro xs ys zs m n hN h1 h2
    cases h2 with
    | nil => exact ⟨m, by omega, h1⟩
    | @copy c ys' zs' n' h2' =>
      cases h1 with
      | @copy c2 xs' ys0 m' h1' =>
        obtain ⟨k, hk, he⟩ := ih
          (by simp only [List.length_cons] at hN ⊢; omega) h1' h2'
        exact ⟨k, by omega, Ed.copy c he⟩
      | @subst a b xs' ys0 m' h1' =>
        obtain ⟨k, hk, he⟩ := ih
          (by simp only [List.length_cons] at hN ⊢; omega) h1' h2'
        exact ⟨k + 1, by omega, Ed.subst a c he⟩
      | @ins b xs0 ys0 m' h1' =>
        obtain ⟨k, hk, he⟩ := ih
          (by simp only [List.length_cons] at hN ⊢; omega) h1' h2'
        exact ⟨k + 1, by omega, Ed.ins c he⟩
      | @del a xs' ys0 m' h1' =>
        obtain ⟨k, hk, he⟩ := ih
          (by simp only [List.length_cons] at hN ⊢; omega) h1' (Ed.copy c h2')
        exact ⟨k + 1, by omega, Ed.del a he⟩
    | @subst a b ys' zs' n' h2' =>
      cases h1 with
      | @copy c2 xs' ys0 m' h1' =>
        obtain ⟨k, hk, he⟩ := ih
          (by simp only [List.length_cons] at hN ⊢; omega) h1' h2'
        exact ⟨k + 1, by omega, Ed.subst a b he⟩
      | @subst p q xs' ys0 m' h1' =>
        obtain ⟨k, hk, he⟩ := ih
          (by simp only [List.length_cons] at hN ⊢; omega) h1' h2'
        exact ⟨k + 1, by omega, Ed.subst p b he⟩
      | @ins q xs0 ys0 m' h1' =>
        obtain ⟨k, hk, he⟩ := ih
          (by simp only [List.length_cons] at hN ⊢; omega) h1' h2'
        exact ⟨k + 1, by omega, Ed.ins b he⟩
      | @del p xs' ys0 m' h1' =>
        obtain ⟨k, hk, he⟩ := ih
          (by simp only [List.length_cons] at hN ⊢; omega) h1' (Ed.subst a b h2')
        exact ⟨k + 1, by omega, Ed.del p he⟩
    | @ins b ys0 zs' n' h2' =>
      obtain ⟨k, hk, he⟩ := ih
        (by simp only [List.length_cons] at hN ⊢; omega) h1 h2'
      exact ⟨k + 1, by omega, Ed.ins b he⟩
    | @del c ys' zs0 n' h2' =>
      cases h1 with
      | @copy c2 xs' ys0 m' h1' =>
        obtain ⟨k, hk, he⟩ := ih
          (by simp only [List.length_cons] at hN ⊢; omega) h1' h2'
        exact ⟨k + 1, by omega, Ed.del c he⟩
      | @subst a b xs' ys0 m' h1' =>
        obtain ⟨k, hk, he⟩ := ih
          (by simp only [List.length_cons] at hN ⊢; omega) h1' h2'
        exact ⟨k + 1, by omega, Ed.del a he⟩
      | @ins b xs0 ys0 m' h1' =>
        obtain ⟨k, hk, he⟩ := ih
          (by simp only [List.length_cons] at hN ⊢; omega) h1' h2'
        exact ⟨k, by omega, he⟩
      | @del a xs' ys0 m' h1' =>
        obtain ⟨k, hk, he⟩ := ih
          (by simp only [List.length_cons] at hN ⊢; omega) h1' (Ed.del c h2')
        exact ⟨k + 1, by omega, Ed.del a he⟩

theorem lev_triangle (xs ys zs : Str) :
    lev xs zs ≤ lev xs ys + lev ys zs := by
  have h1 := ed_exists (xs.length + ys.length) xs ys le_rfl
  have h2 := ed_exists (ys.length + zs.length) ys zs le_rfl
  obtain ⟨k, hk, he⟩ := ed_trans
    (xs.length + ys.length + zs.length + lev xs ys + lev ys zs) le_rfl h1 h2
  exact le_trans (ed_ge he) hk

/-- Abstract DP row: entry `j` is the edit distance between the reversal of
the first `j` characters of `s1` (the part already pushed onto `ru`) and the
reversed processed part `rt` of `s2`. -/
def rowOf : Str → Str → Str → List Nat
  | ru, [], rt => [lev ru rt]
  | ru, x :: xs, rt => lev ru rt :: rowOf (x :: ru) xs rt

theorem rowOf_headD (ru seg rt : Str) : (rowOf ru seg rt).headD 0 = lev ru rt := by
  cases seg <;> rfl

theorem rowOf_nil_rt : ∀ (seg ru : Str),
    rowOf ru seg [] = List.range' ru.length (seg.length + 1) := by
  intro seg
  induction seg with
  | nil =>
    intro ru
    simp [rowOf, lev_nil_right, List.range']
  | cons x xs ih =>
    intro ru
    simp only [rowOf, lev_nil_right, List.length_cons, List.range']
    rw [ih (x :: ru)]
    rfl

theorem min3_add_one (a b c : Nat) :
    min3 (a + 1) (b + 1) (c + 1) = min3 a b c + 1 := by
  unfold min3
  split <;> split <;> (try split) <;> (try split) <;> omega

theorem min3_rot (a b c : Nat) : min3 a b c = min3 b c a := by
  unfold min3
  split <;> split <;> (try split) <;> (try split) <;> omega

theorem rowStep_spec : ∀ (seg ru rt : Str) (c : Char),
    rowStep c seg (rowOf ru seg rt) (lev ru (c :: rt)) =
      (rowOf ru seg (c :: rt)).tail := by
  intro seg
  induction seg with
  | nil =>
    intro ru rt c
    rfl
  | cons x xs ih =>
    intro ru rt c
    show rowStep c (x :: xs) (lev ru rt :: rowOf (x :: ru) xs rt) (lev ru (c :: rt)) = _
    unfold rowStep
    rw [rowOf_headD]
    have hcur : (if x = c then lev ru rt
        else min3 (lev ru rt + 1) (lev ru (c :: rt) + 1) (lev (x :: ru) rt + 1)) =
        lev (x :: ru) (c :: rt) := by
      rw [lev_cons_cons]
      by_cases hxc : x = c
      · rw [if_pos hxc, if_pos hxc]
      · rw [if_neg hxc, if_neg hxc, min3_add_one, min3_rot]
    simp only []
    rw [hcur, ih (x :: ru) rt c]
    cases xs <;> rfl

theorem levLoop_spec : ∀ (u : Str) (s1 rt : Str),
    levLoop s1 (rowOf [] s1 rt) u = rowOf [] s1 (u.reverse ++ rt) := by
  intro u
  induction u with
  | nil =>
    intro s1 rt
    simp [levLoop]
  | cons c cs ih =>
    intro s1 rt
    show levLoop s1 _ cs = _
    have hhead : (rowOf [] s1 rt).headD 0 + 1 = lev [] (c :: rt) := by
      rw [rowOf_headD, lev_nil_left, lev_nil_left]
      rfl
    rw [hhead]
    have hrow : lev [] (c :: rt) :: rowStep c s1 (rowOf [] s1 rt) (lev [] (c :: rt)) =
        rowOf [] s1 (c :: rt) := by
      rw [rowStep_spec]
      cases s1 <;> rfl
    rw [hrow, ih s1 (c :: rt)]
    have : (c :: cs).reverse ++ rt = cs.reverse ++ (c :: rt) := by
      simp
    rw [this]

theorem rowOf_getD_last : ∀ (seg ru rt : Str),
    (rowOf ru seg rt).getD seg.length 0 = lev (seg.reverse ++ ru) rt := by
  intro seg
  induction seg with
  | nil =>
    intro ru rt
    rfl
  | cons x xs ih =>
    intro ru rt
    show (lev ru rt :: rowOf (x :: ru) xs rt).getD (xs.length + 1) 0 = _
    rw [List.getD_cons_succ, ih (x :: ru) rt]
    congr 1
    simp

theorem levenshtein_eq_lev (src dst : Str) :
    levenshtein src dst = lev src.reverse dst.reverse := by
  unfold levenshtein
  by_cases heq : src = dst
  · rw [if_pos heq, heq, lev_self]
  · rw [if_neg heq]
    have hinit : ∀ s : Str, List.range (s.length + 1) = rowOf [] s [] := by
      intro s
      rw [rowOf_nil_rt, List.range_eq_range']
      rfl
    by_cases hsw : utf8Len dst < utf8Len src
    · simp only [hsw, if_true]
      rw [hinit dst, levLoop_spec, List.append_nil, rowOf_getD_last,
        List.append_nil, lev_symm]
    · simp only [hsw, if_false]
      rw [hinit src, levLoop_spec, List.append_nil, rowOf_getD_last,
        List.append_nil]

/-- Claim C9: `levenshtein` computes a distance over Unicode code points:
it is symmetric, zero exactly on identical inputs, satisfies the triangle
inequality, and takes the documented values on the three concrete pairs
(`""` vs `中文老師`, `中文老師` vs itself, `中文` vs `中國`). -/
theorem levenshtein_metric :
    (∀ a b : Str, levenshtein a b = levenshtein b a) ∧
    (∀ a b : Str, levenshtein a b = 0 ↔ a = b) ∧
    (∀ a b c : Str, levenshtein a c ≤ levenshtein a b + levenshtein b c) ∧
    levenshtein [] ("中文老師".data) = 4 ∧
    levenshtein ("中文老師".data) ("中文老師".data) = 0 ∧
    levenshtein ("中文".data) ("中國".data) = 1 := by
  refine ⟨?_, ?_, ?_, by decide, by decide, by decide⟩
  · intro a b
    rw [levenshtein_eq_lev, levenshtein_eq_lev, lev_symm]
  · intro a b
    rw [levenshtein_eq_lev,
      lev_eq_zero_iff (a.reverse.length + b.reverse.length) _ _ le_rfl]
    exact List.reverse_inj
  · intro a b c
    rw [levenshtein_eq_lev, levenshtein_eq_lev, levenshtein_eq_lev]
    exact lev_triangle _ _ _

/-! ## Lookup helpers (claims C4, C5) -/

/-- Source constant `MaxResults = 50`. -/
def MaxResults : Nat := 50

/-- Source constant `MaxLD = 10`. -/
def MaxLD : Nat := 10

/-- Models Go `strings.ToLower` on the ASCII range (the only characters the
claims below lowercase; Go also folds non-ASCII letters, which none of the
concrete inputs used here contain). -/
def lower (s : Str) : Str := s.map Char.toLower

/-- Models Go `strings.Contains(s, m)`: for valid UTF-8, a byte-level
substring match starts and ends on rune boundaries, so it coincides with
code-point-level infix: `m` occurs contiguously in `s`. -/
def strContains : Str → Str → Bool
  | [], m => m.isEmpty
  | x :: rest, m => startsWith m (x :: rest) || strContains rest m

/-- Models Go `strings.ReplaceAll(s, " ", "")`. -/
def removeSpaces (s : Str) : Str := s.filter (fun c => c ≠ ' ')

/-- Models Go `StripDigits` (source lines 569-573): removes decimal digits.
The source removes every Unicode `Nd` character inside an NFD/NFC
normalization sandwich; on the ASCII digits that pinyin tone numbers use the
two agree, and normalization is the identity there. -/
def StripDigits (s : Str) : Str := s.filter (fun c => !c.isDigit)

/-- Go `string <` comparison: byte-lexicographic, which equals
code-point-lexicographic for valid UTF-8. -/
def strLt : Str → Str → Bool
  | [], [] => false
  | [], _ :: _ => true
  | _ :: _, [] => false
  | x :: xs, y :: ys => if x = y then strLt xs ys else decide (x < y)

/-- Stable insertion sort: each element is inserted after every earlier
element it does not strictly precede, which is exactly the result of
Go `sort.SliceStable` for a strict-weak-order `less` (the unique permutation
that is sorted and keeps equal elements in original order). -/
def insertByLt {α : Type} (lt : α → α → Bool) (x : α) : List α → List α
  | [] => [x]
  | y :: ys => if lt x y then x :: y :: ys else y :: insertByLt lt x ys

/-- Sort by folding `insertByLt` over the list in order. -/
def sortByLt {α : Type} (lt : α → α → Bool) (l : List α) : List α :=
  l.foldl (fun acc x => insertByLt lt x acc) []

theorem insertByLt_mem {α : Type} {lt : α → α → Bool} {x z : α} {l : List α}
    (h : z ∈ insertByLt lt x l) : z = x ∨ z ∈ l := by
  induction l with
  | nil => simpa [insertByLt] using h
  | cons y ys ih =>
    unfold insertByLt at h
    by_cases hxy : lt x y = true
    · rw [if_pos hxy] at h
      rcases List.mem_cons.mp h with rfl | h2
      · exact Or.inl rfl
      · exact Or.inr h2
    · rw [if_neg hxy] at h
      rcases List.mem_cons.mp h with rfl | h2
      · exact Or.inr (by simp)
      · rcases ih h2 with h3 | h3
        · exact Or.inl h3
        · exact Or.inr (by simp [h3])

theorem insertByLt_pairwise {α : Type} {lt : α → α → Bool}
    (hasym : ∀ a b, lt a b = true → lt b a = false)
    (htrans : ∀ a b c, lt a b = true → lt b c = true → lt a c = true)
    {x : α} {l : List α}
    (h : l.Pairwise (fun a b => lt b a = false)) :
    (insertByLt lt x l).Pairwise (fun a b => lt b a = false) := by
  induction l with
  | nil => simp [insertByLt]
  | cons y ys ih =>
    rcases List.pairwise_cons.mp h with ⟨hy, hys⟩
    unfold insertByLt
    by_cases hxy : lt x y = true
    · rw [if_pos hxy]
      refine List.Pairwise.cons ?_ (List.Pairwise.cons hy hys)
      intro z hz
      rcases List.mem_cons.mp hz with rfl | hz'
      · exact hasym x z hxy
      · cases hzx : lt z x with
        | false => rfl
        | true =>
          have := htrans z x y hzx hxy
          rw [hy z hz'] at this
          cases this
    · rw [if_neg hxy]
      refine List.Pairwise.cons ?_ (ih hys)
      intro z hz
      rcases insertByLt_mem hz with rfl | hz'
      · exact eq_false_of_ne_true hxy
      · exact hy z hz'

theorem sortByLt_pairwise {α : Type} {lt : α → α → Bool}
    (hasym : ∀ a b, lt a b = true → lt b a = false)
    (htrans : ∀ a b c, lt a b = true → lt b c = true → lt a c = true)
    (l : List α) :
    (sortByLt lt l).Pairwise (fun a b => lt b a = false) := by
  unfold sortByLt
  suffices hgen : ∀ acc, acc.Pairwise (fun a b => lt b a = false) →
      (l.foldl (fun acc x => insertByLt lt x acc) acc).Pairwise
        (fun a b => lt b a = false) by
    exact hgen [] (by simp)
  induction l with
  | nil => intro acc hacc; simpa using hacc
  | cons x xs ih =>
    intro acc hacc
    simp only [List.foldl_cons]
    exact ih _ (insertByLt_pairwise hasym htrans hacc)

theorem strLt_asymm : ∀ a b : Str, strLt a b = true → strLt b a = false := by
  intro a
  induction a with
  | nil =>
    intro b h
    cases b with
    | nil => simp [strLt] at h
    | cons y ys => simp [strLt]
  | cons x xs ih =>
    intro b h
    cases b with
    | nil => simp [strLt] at h
    | cons y ys =>
      unfold strLt at h ⊢
      by_cases hxy : x = y
      · rw [if_pos hxy] at h
        rw [if_pos hxy.symm]
        exact ih ys h
      · rw [if_neg hxy] at h
        rw [if_neg (fun he => hxy he.symm)]
        simp only [decide_eq_true_eq] at h
        simp only [decide_eq_false_iff_not]
        exact lt_asymm h

theorem strLt_trans : ∀ a b c : Str, strLt a b = true → strLt b c = true →
    strLt a c = true := by
  intro a
  induction a with
  | nil =>
    intro b c hab hbc
    cases b with
    | nil => simp [strLt] at hab
    | cons y ys =>
      cases c with
      | nil => simp [strLt] at hbc
      | cons z zs => simp [strLt]
  | cons x xs ih =>
    intro b c hab hbc
    cases b with
    | nil => simp [strLt] at hab
    | cons y ys =>
      cases c with
      | nil => simp [strLt] at hbc
      | cons z zs =>
        unfold strLt at hab hbc ⊢
        by_cases hxy : x = y <;> by_cases hyz : y = z
        · rw [if_pos hxy] at hab
          rw [if_pos hyz] at hbc
          rw [if_pos (hxy.trans hyz)]
          exact ih ys zs hab hbc
        · rw [if_pos hxy] at hab
          rw [if_neg hyz] at hbc
          rw [hxy, if_neg hyz]
          exact hbc
        · rw [if_neg hxy] at hab
          rw [if_pos hyz] at hbc
          rw [← hyz, if_neg hxy]
          exact hab
        · rw [if_neg hxy] at hab
          rw [if_neg hyz] at hbc
          simp only [decide_eq_true_eq] at hab hbc
          have hxz : x < z := lt_trans hab hbc
          by_cases he : x = z
          · rw [he] at hxz
            exact absurd hxz (lt_irrefl z)
          · rw [if_neg he]
            simpa using hxz

/-! ## `Dict.GetByMeaning` (source lines 372-412; claim C4)

The populated dictionary is represented by its entry list (the `lazyLoad`
readiness gate is modelled separately for claim C1). Each loop entry is
paired with its recorded Levenshtein distance, modelling the `lev`
side-map, which is keyed by (distinct) entry pointers in the source. -/

/-- Inner meanings loop of `GetByMeaning`: first meaning that is contained
in the query, has distance at most `MaxLD`, and therefore triggers
`continue nextEntry`; meanings that match but exceed `MaxLD` are skipped. -/
def innerScan (s : Str) : List Str → Option Nat
  | [] => none
  | m :: ms =>
    let m' := lower m
    if strContains s m' then
      let ld := levenshtein s m'
      if ld ≤ MaxLD then some ld else innerScan s ms
    else innerScan s ms

/-- Outer entry loop of `GetByMeaning`. -/
def gbmLoop (s : Str) : List Entry → List (Entry × Nat)
  | [] => []
  | e :: es =>
    match innerScan s e.Meanings with
    | some ld => (e, ld) :: gbmLoop s es
    | none => gbmLoop s es

/-- Source `GetByMeaning`: lowercase the query, collect matches with their
distances, sort stably by distance, truncate to `MaxResults`. -/
def GetByMeaning (es : List Entry) (q : Str) : List Entry :=
  let s := lower q
  (((sortByLt (fun a b => decide (a.2 < b.2)) (gbmLoop s es)).take
    MaxResults).map Prod.fst)

/-! ## `Dict.GetByPinyin` (source lines 334-368; claim C5) -/

/-- Source `GetByPinyin`: normalize the query to tone numbers, classify it
as plaintext when no tone digit `1`-`5` is present, lowercase and strip
spaces on both sides, strip all digits from candidates for plaintext
queries, and sort the matches by their raw stored pinyin. -/
def GetByPinyin (es : List Entry) (q : Str) : List Entry :=
  let s0 := PinyinToneNums q
  let isPlaintext := (firstIdxAny toneNums s0).isNone
  let s := removeSpaces (lower s0)
  let results := es.filter (fun e =>
    let p := removeSpaces (lower e.Pinyin)
    let p' := if isPlaintext then StripDigits p else p
    p' == s)
  sortByLt (fun a b => strLt a.Pinyin b.Pinyin) results

/-! ## Claim C4 -/

/-- Entry used by the C4 counterexample. -/
def e4 : Entry :=
  ⟨"甲".data, "甲".data, "x1".data, ["abc".data, "abcdefghijklmnop".data]⟩

/-- Claim C4 counterexample: for the lowercased query `abcdefghijklmnop`,
the first meaning (in stored order) whose text is a substring of the query
is `abc`, and its distance 13 exceeds the maximum 10 — the claim then
requires the entry to be discarded entirely — yet `GetByMeaning` returns
the entry, ranked by the later meaning at distance 0: a too-distant
matching meaning is skipped, not fatal to the entry. -/
theorem meaning_far_match_not_discarded :
    (e4.Meanings.find? (fun m =>
        strContains ("abcdefghijklmnop".data) (lower m)) = some ("abc".data)) ∧
    levenshtein ("abcdefghijklmnop".data) (lower ("abc".data)) = 13 ∧
    13 > MaxLD ∧
    GetByMeaning [e4] ("abcdefghijklmnop".data) = [e4] := by
  decide

theorem innerScan_eq_find (s : Str) (ms : List Str) :
    innerScan s ms =
      (ms.find? (fun m => strContains s (lower m) &&
        decide (levenshtein s (lower m) ≤ MaxLD))).map
        (fun m => levenshtein s (lower m)) := by
  induction ms with
  | nil => rfl
  | cons m ms' ih =>
    unfold innerScan
    simp only [List.find?]
    by_cases hc : strContains s (lower m) = true
    · by_cases hld : levenshtein s (lower m) ≤ MaxLD
      · simp [hc, hld]
      · simp [hc, hld, ih]
    · simp only [Bool.not_eq_true] at hc
      simp [hc, ih]

theorem gbmLoop_eq_filterMap (s : Str) (es : List Entry) :
    gbmLoop s es = es.filterMap (fun e =>
      (e.Meanings.find? (fun m => strContains s (lower m) &&
        decide (levenshtein s (lower m) ≤ MaxLD))).map
        (fun m => (e, levenshtein s (lower m)))) := by
  induction es with
  | nil => rfl
  | cons e es' ih =>
    unfold gbmLoop
    rw [innerScan_eq_find]
    simp only [List.filterMap_cons]
    cases hf : e.Meanings.find? (fun m => strContains s (lower m) &&
        decide (levenshtein s (lower m) ≤ MaxLD)) with
    | none => simp [ih]
    | some m => simp [ih]

/-- Claim C4 (amended): for every query and entry list, `GetByMeaning`
ranks each entry by the first meaning (in stored order) whose lowercased
text is a contiguous substring of the lowercased query AND whose
Levenshtein distance from the query is at most 10; matching meanings whose
distance exceeds 10 are skipped rather than discarding the entry, and an
entry contributes nothing only when no meaning qualifies. Each entry
contributes at most one result; results are sorted ascending by that
distance (stable on discovery order) and truncated to 50. -/
theorem getByMeaning_amended (es : List Entry) (q : Str) :
    GetByMeaning es q =
      (((sortByLt (fun a b => decide (a.2 < b.2))
        (es.filterMap (fun e =>
          (e.Meanings.find? (fun m => strContains (lower q) (lower m) &&
            decide (levenshtein (lower q) (lower m) ≤ MaxLD))).map
            (fun m => (e, levenshtein (lower q) (lower m)))))).take
        MaxResults).map Prod.fst) ∧
    (sortByLt (fun a b => decide (a.2 < b.2)) (gbmLoop (lower q) es)).Pairwise
      (fun a b => a.2 ≤ b.2) := by
  constructor
  · unfold GetByMeaning
    simp only [gbmLoop_eq_filterMap]
  · have hp := @sortByLt_pairwise (Entry × Nat)
      (fun a b => decide (a.2 < b.2))
      (fun a b h => by simp at h ⊢; omega)
      (fun a b c h1 h2 => by simp at h1 h2 ⊢; omega)
      (gbmLoop (lower q) es)
    refine hp.imp ?_
    intro a b h
    simp at h
    omega

/-! ## Claim C5 -/

/-- Entry used by the C5 counterexample: its stored pinyin carries the
out-of-range tone digit 6. -/
def e5 : Entry := ⟨"乙".data, "乙".data, "zhong6".data, ["other".data]⟩

/-- Claim C5 counterexample: for the query `zhong6`, the normalized query
equals the normalized stored pinyin of the entry exactly, so under the
claim's "a query carrying any explicit tone digit — even an invalid one —
must match exactly" the entry would be returned; but the code classifies
`zhong6` as plaintext (6 is not in `12345`), strips all digits from the
candidate, and returns no results. -/
theorem pinyin_invalid_digit_not_exact :
    removeSpaces (lower (PinyinToneNums ("zhong6".data))) =
      removeSpaces (lower e5.Pinyin) ∧
    GetByPinyin [e5] ("zhong6".data) = [] := by
  decide

theorem stripDigits_no_digit (p : Str) : ∀ c ∈ StripDigits p, c.isDigit = false := by
  intro c hc
  unfold StripDigits at hc
  have := List.of_mem_filter hc
  simpa using this

/-- Entries for the C5 witness and the spec's concrete examples. -/
def e5cn : Entry :=
  ⟨"中文".data, "中文".data, "Zhong1 wen2".data, ["Chinese language".data]⟩

/-- Claim C5 (amended): `GetByPinyin` classifies a query as plaintext when
its tone-number normalization contains no digit `1`-`5`; plaintext matching
strips all digits from each candidate, so any plaintext query that still
carries a digit (such as one with an out-of-range tone digit) yields zero
results — even against a stored pinyin that is byte-identical to the query.
A query with a digit `1`-`5` must match exactly. Matches are returned
sorted ascending by raw stored pinyin (stable on index order); and the
spec's concrete examples hold: `zhongwen`, `ZHONG WEN`, `zhong1 wen2` all
resolve to the `中文` entry, while `zhong6` yields zero results. -/
theorem getByPinyin_amended (es : List Entry) (q : Str) :
    ((firstIdxAny toneNums (PinyinToneNums q)).isNone = true →
      (∃ c ∈ removeSpaces (lower (PinyinToneNums q)), c.isDigit = true) →
      GetByPinyin es q = []) ∧
    (GetByPinyin es q).Pairwise (fun a b => strLt b.Pinyin a.Pinyin = false) ∧
    GetByPinyin [e5cn] ("zhongwen".data) = [e5cn] ∧
    GetByPinyin [e5cn] ("ZHONG WEN".data) = [e5cn] ∧
    GetByPinyin [e5cn] ("zhong1 wen2".data) = [e5cn] ∧
    GetByPinyin [e5cn] ("zhong6".data) = [] := by
  refine ⟨?_, ?_, by decide, by decide, by decide, by decide⟩
  · intro hplain ⟨c, hcmem, hcdig⟩
    unfold GetByPinyin
    simp only [hplain, if_true]
    have hfilter : es.filter (fun e =>
        StripDigits (removeSpaces (lower e.Pinyin)) ==
          removeSpaces (lower (PinyinToneNums q))) = [] := by
      rw [List.filter_eq_nil_iff]
      intro e he
      simp only [beq_iff_eq]
      intro heq
      have := stripDigits_no_digit (removeSpaces (lower e.Pinyin)) c
        (heq ▸ hcmem)
      rw [hcdig] at this
      cases this
    rw [hfilter]
    rfl
  · exact sortByLt_pairwise
      (fun a b h => strLt_asymm a.Pinyin b.Pinyin h)
      (fun a b c h1 h2 => strLt_trans a.Pinyin b.Pinyin c.Pinyin h1 h2) _

/-- Witness for the amended C5 theorem: `zhong0` is classified plaintext,
its normalization retains the digit `0`, and the lookup returns nothing
even against a byte-identical stored pinyin. -/
theorem getByPinyin_amended_witness :
    GetByPinyin [⟨"丙".data, "丙".data, "zhong0".data, []⟩] ("zhong0".data) = [] :=
  (getByPinyin_amended [⟨"丙".data, "丙".data, "zhong0".data, []⟩]
    ("zhong0".data)).1 (by decide) ⟨'0', by decide, by decide⟩

/-! ## Transliteration engine (claim C8): `ConvertSymbols`, `IsHanzi`
support table, `Dict.GetByHanzi`, `Dict.HanziToPinyin`, `FixSymbolSpaces` -/

/-- Source `symbols` map: full-width CJK punctuation to half-width Latin
(every value is a single character). -/
def symbols : Char → Option Char
  | '？' => some '?'
  | '！' => some '!'
  | '：' => some ':'
  | '。' => some '.'
  | '・' => some '.'
  | '，' => some ','
  | '；' => some ';'
  | '（' => some '('
  | '）' => some ')'
  | '【' => some '['
  | '】' => some ']'
  | _ => none

/-- Source `ConvertSymbols`. -/
def ConvertSymbols (s : Str) : Str := s.map (fun c => (symbols c).getD c)

/-- Membership in the Unicode Han script, as tested by
`unicode.In(r, unicode.Han)`; the range table of Go's `unicode` package
(Unicode 13 Han ranges). -/
def isHan (c : Char) : Bool :=
  let n := c.toNat
  (0x2E80 ≤ n && n ≤ 0x2E99) || (0x2E9B ≤ n && n ≤ 0x2EF3) ||
  (0x2F00 ≤ n && n ≤ 0x2FD5) || (n == 0x3005) || (n == 0x3007) ||
  (0x3021 ≤ n && n ≤ 0x3029) || (0x3038 ≤ n && n ≤ 0x303B) ||
  (0x3400 ≤ n && n ≤ 0x4DBF) || (0x4E00 ≤ n && n ≤ 0x9FFF) ||
  (0xF900 ≤ n && n ≤ 0xFA6D) || (0xFA70 ≤ n && n ≤ 0xFAD9) ||
  (0x20000 ≤ n && n ≤ 0x2A6DF) || (0x2A700 ≤ n && n ≤ 0x2B738) ||
  (0x2B740 ≤ n && n ≤ 0x2B81D) || (0x2B820 ≤ n && n ≤ 0x2CEA1) ||
  (0x2CEB0 ≤ n && n ≤ 0x2EBE0) || (0x2F800 ≤ n && n ≤ 0x2FA1D) ||
  (0x30000 ≤ n && n ≤ 0x3134A)

/-- Source `Dict.GetByHanzi`: trim the query, return the first entry whose
traditional or simplified field equals it (`none` models the nil return). -/
def GetByHanzi (es : List Entry) (q : Str) : Option Entry :=
  let s := trimSpace q
  es.find? (fun e => e.Traditional == s || e.Simplified == s)

/-- Greedy longest-match probe of `HanziToPinyin`: try the prefix of length
`n` down to length 1 against the index, returning the matched entry and the
matched length (the source's inner `j` loop from `len(runes)` down to
`i+1`). -/
def probe (es : List Entry) (rs : Str) : Nat → Option (Entry × Nat)
  | 0 => none
  | n + 1 =>
    match GetByHanzi es (rs.take (n + 1)) with
    | some e => some (e, n + 1)
    | none => probe es rs n

/-- Main loop of `HanziToPinyin`. The loop of the source advances `i` by at
least one position per iteration; the fuel argument (instantiated with the
input length by the wrapper) makes that termination explicit and never runs
out. At a non-Han position the whole non-Han run is copied and one space
appended; at a Han position the longest matching prefix contributes its
stored pinyin and a space, or the single character is copied verbatim. -/
def h2pLoop (es : List Entry) : Nat → Str → Str
  | 0, _ => []
  | _, [] => []
  | fuel + 1, r :: rest =>
    if isHan r then
      match probe es (r :: rest) (r :: rest).length with
      | some (e, n) => e.Pinyin ++ ' ' :: h2pLoop es fuel ((r :: rest).drop n)
      | none => r :: h2pLoop es fuel rest
    else
      ((r :: rest).takeWhile (fun c => !(isHan c))) ++
        ' ' :: h2pLoop es fuel ((r :: rest).dropWhile (fun c => !(isHan c)))

/-- Source `Dict.HanziToPinyin`: trim, early exit on empty, convert
symbols, run the greedy loop, then upper-case the first character and
lower-case the trimmed remainder. The source slices `p[:1]` by byte; on
this claim's inputs the first character is ASCII, where the byte and the
character coincide. -/
def HanziToPinyin (es : List Entry) (s : Str) : Str :=
  let s1 := trimSpace s
  if s1 = [] then []
  else
    let s2 := ConvertSymbols s1
    let p := h2pLoop es s2.length s2
    match p with
    | [] => []
    | c :: rest => Char.toUpper c :: lower (trimSpace rest)

/-- Two-character pattern replacement `[a, b] → [c]`; models
`strings.ReplaceAll` for the two-character patterns of `FixSymbolSpaces`
(left-to-right, non-overlapping). -/
def replace2 (a b c : Char) : Str → Str
  | [] => []
  | [x] => [x]
  | x :: y :: rest =>
    if x = a ∧ y = b then c :: replace2 a b c rest
    else x :: replace2 a b c (y :: rest)

/-- Source `FixSymbolSpaces`: the ten `ReplaceAll` calls in source order. -/
def FixSymbolSpaces (s : Str) : Str :=
  (replace2 ' ' ')' ')'
    (replace2 '(' ' ' '('
      (replace2 ' ' ']' ']'
        (replace2 '[' ' ' '['
          (replace2 ' ' ',' ','
            (replace2 ' ' ';' ';'
              (replace2 ' ' ':' ':'
                (replace2 ' ' '!' '!'
                  (replace2 ' ' '.' '.'
                    (replace2 ' ' '?' '?' s))))))))))

/-- Dictionary of claim C8: 我 → `wo3`, 的 → `de5`, 大王 → `da4 wang2`. -/
def d8 : List Entry :=
  [⟨"我".data, "我".data, "wo3".data, ["I".data]⟩,
   ⟨"的".data, "的".data, "de5".data, ["of".data]⟩,
   ⟨"大王".data, "大王".data, "da4 wang2".data, ["king".data]⟩]

/-- Claim C8: transliterating `我的大王！` against that dictionary —
greedy longest-match segmentation producing `Wo3 de5 da4 wang2 !`, then
tone rendering, capitalization of only the first character with the rest
lowercased, and the punctuation-spacing cleanup that removes the space
before the closing `!` — yields exactly `Wǒ de dà wáng!`. -/
theorem hanzi_to_pinyin_pipeline :
    HanziToPinyin d8 ("我的大王！".data) = "Wo3 de5 da4 wang2 !".data ∧
    (PinyinTones (HanziToPinyin d8 ("我的大王！".data))).map FixSymbolSpaces =
      some ("Wǒ de dà wáng!".data) := by
  decide

end Cedict
